import Mathlib

/-!
Verification of the TriggerSetFormatter repository (App.jsx,
product_explorer_upload_filter_visualize.jsx) against its specification.

The JavaScript sources are shallowly embedded: JSON values become the
mutual inductive `Json`, `JSON.parse` becomes the fuel-based recursive
descent parser `jsonParseChars`, `JSON.stringify` becomes `strChars`, and
the application functions (`parsePossiblyMany`, `flatVariants`, `toCSV`,
pagination, the price filter, `deriveProductRow`, `handleParse`,
`onFiles`) are translated function by function from the source.

Modelling notes, applying throughout:
* JavaScript numbers are modelled exactly (`Int` for JSON number
  literals, `Rat` for the results of `Number(...)` coercions); the
  float64 rounding of IEEE doubles is not modelled, which is faithful at
  every concrete value appearing below.
* JSON number literals are modelled as integers.  The repository's data
  carries all decimal quantities (prices) as JSON strings, and no claim
  exercises a fractional JSON number literal.
* String escape handling covers the escapes that `JSON.stringify`
  actually emits for the data in scope; `\u` hex escapes and raw control
  characters are outside every claim.
-/

/-! `Json`: JSON values, as produced by the browser's `JSON.parse`.
Arrays and objects carry their own list types so that all recursions
below are mutual-structural (and therefore compute by `rfl`). -/

mutual
inductive Json where
  | null : Json
  | bool (b : Bool) : Json
  | num (n : Int) : Json
  | str (s : String) : Json
  | arr (elems : JsonList) : Json
  | obj (fields : JsonFields) : Json
inductive JsonList where
  | nil : JsonList
  | cons (hd : Json) (tl : JsonList) : JsonList
inductive JsonFields where
  | nil : JsonFields
  | cons (k : String) (v : Json) (tl : JsonFields) : JsonFields
end

/-- View a `JsonList` as an ordinary list. -/
def JsonList.toList : JsonList → List Json
  | .nil => []
  | .cons x tl => x :: tl.toList

/-- Build a `JsonList` from an ordinary list. -/
def JsonList.ofList : List Json → JsonList
  | [] => .nil
  | x :: tl => .cons x (JsonList.ofList tl)

/-- View `JsonFields` as an ordinary association list. -/
def JsonFields.toList : JsonFields → List (String × Json)
  | .nil => []
  | .cons k v tl => (k, v) :: tl.toList

/-- Build `JsonFields` from an ordinary association list. -/
def JsonFields.ofList : List (String × Json) → JsonFields
  | [] => .nil
  | (k, v) :: tl => .cons k v (JsonFields.ofList tl)

/-- Shorthand for array values. -/
def jArr (xs : List Json) : Json := .arr (JsonList.ofList xs)

/-- Shorthand for object values. -/
def jObj (fs : List (String × Json)) : Json := .obj (JsonFields.ofList fs)

/-! ### Character-level utilities shared by the embedding -/

/-- Whitespace, as trimmed/skipped by the JavaScript string functions in
scope (space, tab, newline, carriage return). -/
def isWsChar (c : Char) : Bool := c = ' ' || c = '\t' || c = '\n' || c = '\r'

/-- Model of `String.prototype.trim`. -/
def trimChars (l : List Char) : List Char :=
  ((l.dropWhile isWsChar).reverse.dropWhile isWsChar).reverse

/-- Split on each newline character.  The source splits on the regexp
of one-or-more newlines and then trims and drops empty segments; after
that trim-and-filter step, splitting on every single newline is
observably identical, so this simpler split is used. -/
def splitOnNl : List Char → List (List Char)
  | [] => [[]]
  | c :: cs =>
    if c = '\n' then [] :: splitOnNl cs
    else
      match splitOnNl cs with
      | s :: ss => (c :: s) :: ss
      | [] => [[c]]

/-- Number of opening bracket characters, as counted by
`buffer.match(/[\x7b\[]/g)` in `parsePossiblyMany` (App.jsx:71) —
purely textual, including brackets inside string literals. -/
def countOpen (l : List Char) : Nat := l.countP (fun c => c = '\x7b' || c = '[')

/-- Number of closing bracket characters (App.jsx:72). -/
def countClose (l : List Char) : Nat := l.countP (fun c => c = '\x7d' || c = ']')

/-! ### Serialization (`JSON.stringify`) -/

/-- Decimal digit character. -/
def digitChar (d : Nat) : Char := Char.ofNat (48 + d)

/-- Auxiliary decimal printer with explicit fuel (the fuel is an upper
bound on the number being printed, which suffices since each step
divides by 10). -/
def natCharsAux : Nat → Nat → List Char
  | 0, _ => []
  | fuel + 1, n =>
    if n = 0 then [] else natCharsAux fuel (n / 10) ++ [digitChar (n % 10)]

/-- Decimal representation of a natural number. -/
def natChars (num : Nat) : List Char := if num = 0 then "0".data else natCharsAux num num

/-- Decimal representation of an integer. -/
def intChars : Int → List Char
  | .ofNat m => natChars m
  | .negSucc m => '-' :: natChars (m + 1)

/-- String-body escaping performed by `JSON.stringify` (for the escapes
exercised by the data in scope). -/
def escStr : List Char → List Char
  | [] => []
  | c :: cs =>
    if c = '"' then '\\' :: '"' :: escStr cs
    else if c = '\\' then '\\' :: '\\' :: escStr cs
    else if c = '\n' then '\\' :: 'n' :: escStr cs
    else if c = '\t' then '\\' :: 't' :: escStr cs
    else if c = '\r' then '\\' :: 'r' :: escStr cs
    else c :: escStr cs

/-! `strChars`: characters of `JSON.stringify(v)` (no indentation, as
called by the source). -/

mutual
def strChars : Json → List Char
  | .null => "null".data
  | .bool true => "true".data
  | .bool false => "false".data
  | .num n => intChars n
  | .str s => '"' :: escStr s.data ++ ['"']
  | .arr xs => '[' :: strElems xs ++ [']']
  | .obj fs => '\x7b' :: strFields fs ++ ['\x7d']
  termination_by structural j => j
def strElems : JsonList → List Char
  | .nil => []
  | .cons x .nil => strChars x
  | .cons x (.cons y tl) => strChars x ++ ',' :: strElems (JsonList.cons y tl)
  termination_by structural l => l
def strFields : JsonFields → List Char
  | .nil => []
  | .cons k v .nil => '"' :: escStr k.data ++ '"' :: ':' :: strChars v
  | .cons k v (.cons k2 v2 tl) =>
    ('"' :: escStr k.data ++ '"' :: ':' :: strChars v)
      ++ ',' :: strFields (JsonFields.cons k2 v2 tl)
  termination_by structural l => l
end

/-- Model of `JSON.stringify` on the values in scope. -/
def stringify (v : Json) : String := ⟨strChars v⟩

/-! ### Parsing (`JSON.parse`)

A fuel-based recursive-descent parser.  It is lenient in two ways that
no claim exercises: fractional/exponent number literals are rejected
(the repository's decimal quantities are JSON strings), and raw control
characters inside strings are accepted. -/

/-- Skip leading JSON whitespace. -/
def skipWs : List Char → List Char
  | [] => []
  | c :: cs => if isWsChar c then skipWs cs else c :: cs

/-- Decode one escape character following a backslash. -/
def unescChar (c : Char) : Option Char :=
  if c = '"' then some '"'
  else if c = '\\' then some '\\'
  else if c = '/' then some '/'
  else if c = 'n' then some '\n'
  else if c = 't' then some '\t'
  else if c = 'r' then some '\r'
  else if c = 'b' then some (Char.ofNat 8)
  else if c = 'f' then some (Char.ofNat 12)
  else none

/-- Parse the body of a string literal after the opening quote:
returns the decoded characters and the input after the closing quote. -/
def parseStrBody : List Char → Option (List Char × List Char)
  | [] => none
  | c :: cs =>
    if c = '"' then some ([], cs)
    else if c = '\\' then
      match cs with
      | [] => none
      | e :: cs2 =>
        match unescChar e, parseStrBody cs2 with
        | some d, some (s, rest) => some (d :: s, rest)
        | _, _ => none
    else
      match parseStrBody cs with
      | some (s, rest) => some (c :: s, rest)
      | none => none

/-- Numeric value of a list of decimal digit characters. -/
def digitsVal (l : List Char) : Nat :=
  l.foldl (fun a c => 10 * a + (c.toNat - 48)) 0

/-- Parse a nonempty run of decimal digits. -/
def parseNatNum (l : List Char) : Option (Nat × List Char) :=
  let ds := l.takeWhile Char.isDigit
  if ds.isEmpty then none else some (digitsVal ds, l.dropWhile Char.isDigit)

/-- The number branch of the value parser (non-negative literal). -/
def parseNumFrom (l : List Char) : Option (Json × List Char) :=
  match parseNatNum l with
  | some (m, rest) => some (.num (m : Int), rest)
  | none => none

/-- The number branch of the value parser after a minus sign. -/
def parseNegNumFrom (l : List Char) : Option (Json × List Char) :=
  match parseNatNum l with
  | some (m, rest) => some (.num (-(m : Int)), rest)
  | none => none

mutual
/-- Parse one JSON value; fuel bounds the recursion depth through
arrays and objects. -/
def parseVal : Nat → List Char → Option (Json × List Char)
  | 0, _ => none
  | fuel + 1, cs =>
    match skipWs cs with
    | [] => none
    | c :: cs2 =>
      if c = '\x7b' then
        match skipWs cs2 with
        | [] => none
        | c2 :: rest2 =>
          if c2 = '\x7d' then some (.obj .nil, rest2)
          else
            match parseFields fuel (c2 :: rest2) with
            | some (fs, rest) => some (.obj fs, rest)
            | none => none
      else if c = '[' then
        match skipWs cs2 with
        | [] => none
        | c2 :: rest2 =>
          if c2 = ']' then some (.arr .nil, rest2)
          else
            match parseElems fuel (c2 :: rest2) with
            | some (xs, rest) => some (.arr xs, rest)
            | none => none
      else if c = '"' then
        match parseStrBody cs2 with
        | some (s, rest) => some (.str ⟨s⟩, rest)
        | none => none
      else if c = '-' then parseNegNumFrom cs2
      else if c.isDigit then parseNumFrom (c :: cs2)
      else if c = 't' then
        if cs2.take 3 = ['r', 'u', 'e'] then some (.bool true, cs2.drop 3) else none
      else if c = 'f' then
        if cs2.take 4 = ['a', 'l', 's', 'e'] then some (.bool false, cs2.drop 4) else none
      else if c = 'n' then
        if cs2.take 3 = ['u', 'l', 'l'] then some (.null, cs2.drop 3) else none
      else none
  termination_by structural fuel => fuel
/-- Parse the elements of a nonempty array (positioned at the first
element), consuming the closing bracket. -/
def parseElems : Nat → List Char → Option (JsonList × List Char)
  | 0, _ => none
  | fuel + 1, cs =>
    match parseVal fuel cs with
    | none => none
    | some (v, rest) =>
      match skipWs rest with
      | [] => none
      | c :: rest2 =>
        if c = ',' then
          match parseElems fuel rest2 with
          | some (xs, rest3) => some (.cons v xs, rest3)
          | none => none
        else if c = ']' then some (.cons v .nil, rest2)
        else none
  termination_by structural fuel => fuel
/-- Parse the members of a nonempty object (positioned at the first
key), consuming the closing brace. -/
def parseFields : Nat → List Char → Option (JsonFields × List Char)
  | 0, _ => none
  | fuel + 1, cs =>
    match skipWs cs with
    | [] => none
    | c :: cs2 =>
      if c = '"' then
        match parseStrBody cs2 with
        | none => none
        | some (k, rest) =>
          match skipWs rest with
          | [] => none
          | c2 :: rest2 =>
            if c2 = ':' then
              match parseVal fuel rest2 with
              | none => none
              | some (v, rest3) =>
                match skipWs rest3 with
                | [] => none
                | c3 :: rest4 =>
                  if c3 = ',' then
                    match parseFields fuel rest4 with
                    | some (fs, rest5) => some (.cons ⟨k⟩ v fs, rest5)
                    | none => none
                  else if c3 = '\x7d' then some (.cons ⟨k⟩ v .nil, rest4)
                  else none
            else none
      else none
  termination_by structural fuel => fuel
end

/-- Model of `JSON.parse(s)`: parse one value and require only
whitespace to remain; `none` models a thrown `SyntaxError`. -/
def jsonParseChars (cs : List Char) : Option Json :=
  match parseVal (cs.length + 1) cs with
  | some (v, rest) => if skipWs rest = [] then some v else none
  | none => none

/-! ### `parsePossiblyMany` (App.jsx:39-78) -/

/-- Model of the local `flush` closure (App.jsx:57-67): trim the
buffer, skip an empty snippet, otherwise parse-or-discard; returns the
values appended to `out`.  In the source a parse failure still clears
the buffer, and an all-whitespace buffer is left in place; the caller
below always clears, which is observably identical because a buffer
reaching `flush` with a positive bracket count is never all-whitespace,
and the final flush never reuses the buffer. -/
def flushResult (buffer : List Char) : List Json :=
  let snippet := trimChars buffer
  if snippet.isEmpty then []
  else
    match jsonParseChars snippet with
    | some v => [v]
    | none => []

/-- The line-accumulation loop of `parsePossiblyMany` (App.jsx:69-76),
including the final flush (App.jsx:76). -/
def pmLoop : List (List Char) → List Char → List Json → List Json
  | [], buffer, out => out ++ flushResult buffer
  | l :: ls, buffer, out =>
    let buf2 := if buffer.isEmpty then l else buffer ++ '\n' :: l
    if 0 < countOpen buf2 ∧ countOpen buf2 = countClose buf2 then
      pmLoop ls [] (out ++ flushResult buf2)
    else pmLoop ls buf2 out

/-- Newline-delimited recovery (App.jsx:50-77): split on newlines, trim
each line, drop empty lines, then run the accumulation loop. -/
def pmNdjson (txt : List Char) : List Json :=
  pmLoop (((splitOnNl txt).map trimChars).filter (fun l => ¬l.isEmpty)) [] []

/-- Model of `parsePossiblyMany` (App.jsx:39-78): an empty or
all-whitespace input yields `[]`; otherwise try `JSON.parse` on the
trimmed input, returning an array's elements or a one-element list,
and fall back to newline-delimited recovery when that parse throws. -/
def parsePossiblyMany (raw : String) : List Json :=
  if (trimChars raw.data).isEmpty then []
  else
    let txt := trimChars raw.data
    match jsonParseChars txt with
    | some (.arr xs) => xs.toList
    | some v => [v]
    | none => pmNdjson txt


/-! ### JavaScript object semantics used by the application layer -/

/-- Last binding of a key in an object's field list (`JSON.parse` keeps
the last of duplicate keys, and later literal assignments overwrite
earlier ones). -/
def JsonFields.lookupLast : JsonFields → String → Option Json
  | .nil, _ => none
  | .cons k2 v tl, k =>
    match tl.lookupLast k with
    | some r => some r
    | none => if k2 = k then some v else none

/-- Whether an object's field list binds a key. -/
def JsonFields.hasKey : JsonFields → String → Bool
  | .nil, _ => false
  | .cons k2 _ tl, k => k2 = k || tl.hasKey k

/-- Property access `j[k]`; `none` models `undefined` (also the result
of accessing a property on a non-object, which no claim exercises). -/
def Json.getField (j : Json) (k : String) : Option Json :=
  match j with
  | .obj fs => fs.lookupLast k
  | _ => none

/-- Whether a value is an object defining the key `k` as own property. -/
def Json.hasKey (j : Json) (k : String) : Bool :=
  match j with
  | .obj fs => fs.hasKey k
  | _ => false

/-- JavaScript truthiness of a JSON value. -/
def jsTruthy : Json → Bool
  | .null => false
  | .bool b => b
  | .num n => n ≠ 0
  | .str s => s ≠ ""
  | .arr _ => true
  | .obj _ => true

/-- Truthiness of a possibly-`undefined` value (`Boolean(x)`). -/
def jsTruthyOpt (v : Option Json) : Bool :=
  match v with
  | some x => jsTruthy x
  | none => false

/-- The JavaScript `x || d` default idiom. -/
def jsOr (v : Option Json) (d : Json) : Json :=
  match v with
  | some x => if jsTruthy x then x else d
  | none => d

/-- Elements iterated by `(x || []).forEach(...)`: the elements when
`x` is an array, nothing when it is absent/falsy.  (A truthy non-array
would throw a `TypeError` in the source; no claim exercises one, and it
is treated as empty here.) -/
def asElems (v : Option Json) : List Json :=
  match v with
  | some (.arr xs) => xs.toList
  | _ => []

/-- A flattened variant row: a JavaScript object literal given as its
ordered property assignments.  A later assignment overwrites an earlier
one, and a `none` value models a property set to `undefined`. -/
abbrev Row := List (String × Option Json)

/-- The entry a key resolves to in a row (last assignment wins). -/
def rowGetEntry : Row → String → Option (Option Json)
  | [], _ => none
  | (k2, v) :: tl, k =>
    match rowGetEntry tl k with
    | some r => some r
    | none => if k2 = k then some v else none

/-- Property read on a row; absent keys and `undefined` values both
read as `undefined` (`none`). -/
def rowGet (row : Row) (k : String) : Option Json :=
  (rowGetEntry row k).getD none

/-- The fields contributed by `...variant` (object spread); spreading a
non-object contributes no string-keyed properties of interest. -/
def spreadFields (v : Json) : Row :=
  match v with
  | .obj fs => fs.toList.map (fun kv => (kv.1, some kv.2))
  | _ => []

/-! ### `flatVariants` (App.jsx:321-349) -/

/-- The object literal pushed for one variant (App.jsx:327-340):
contextual fields first, then all product fields (collections, tags and
description defaulted), then the spread of the variant's own fields. -/
def mkRow (idx : Nat) (ty : String) (product variant : Json) : Row :=
  [("set_index", some (Json.num (idx : Int))),
   ("trigger_type", some (Json.str ty)),
   ("product_id", product.getField "product_id"),
   ("product_title", product.getField "product_title"),
   ("product_vendor", product.getField "product_vendor"),
   ("product_url", product.getField "product_url"),
   ("product_handle", product.getField "product_handle"),
   ("product_image", product.getField "product_image"),
   ("product_collections", some (jsOr (product.getField "product_collections") (jArr []))),
   ("product_tags", some (jsOr (product.getField "product_tags") (jArr []))),
   ("product_description", some (jsOr (product.getField "product_description") (Json.str "")))]
    ++ spreadFields variant

/-- The optional-chain `setObj?.outer?.inner` followed by `|| []`. -/
def selProducts (setObj : Json) (outer inner : String) : List Json :=
  asElems ((setObj.getField outer).bind (fun t => t.getField inner))

/-- The `add(arr, type)` helper (App.jsx:324-343): one row per product
variant, products in order, variants in order. -/
def addRows (idx : Nat) (ty : String) (products : List Json) : List Row :=
  products.flatMap (fun p =>
    (asElems (p.getField "product_variants")).map (fun v => mkRow idx ty p v))

/-- Model of the `flatVariants` memo (App.jsx:321-349). -/
def flatVariants (sets : List Json) : List Row :=
  sets.enum.flatMap (fun p =>
    addRows p.1 "product" (selProducts p.2 "triggerProduct" "selectedTriggerProducts")
      ++ addRows p.1 "upsell" (selProducts p.2 "triggerUpsell" "selectedUpsellProducts"))

/-- Trigger-role products of one set. -/
def triggerProductsOf (s : Json) : List Json :=
  selProducts s "triggerProduct" "selectedTriggerProducts"

/-- Upsell-role products of one set. -/
def upsellProductsOf (s : Json) : List Json :=
  selProducts s "triggerUpsell" "selectedUpsellProducts"

/-- Total number of variants across a product list. -/
def variantTotal (ps : List Json) : Nat :=
  (ps.map (fun p => (asElems (p.getField "product_variants")).length)).sum

/-! ### The built-in example and the ingest handlers (App.jsx:80-118,
279-303) -/

/-- The single trigger set inside the `tinyExample` fixture
(App.jsx:80-118). -/
def tinyExampleSet : Json :=
  jObj [
    ("triggerProduct", jObj [
      ("type", Json.str "products"),
      ("selectedTriggerProducts", jArr [
        jObj [
          ("product_id", Json.str "123"),
          ("product_title", Json.str "Sample Product"),
          ("product_description", Json.str "Short description"),
          ("product_handle", Json.str "sample-product"),
          ("product_image", Json.str "https://via.placeholder.com/400x300.png?text=Image"),
          ("product_vendor", Json.str "Vendor"),
          ("product_collections", jArr [
            jObj [("id", Json.str "gid://shopify/Collection/1"), ("title", Json.str "Collection A")],
            jObj [("id", Json.str "gid://shopify/Collection/2"), ("title", Json.str "Collection B")]]),
          ("product_tags", jArr [Json.str "tag-one", Json.str "tag-two"]),
          ("product_url", Json.str "https://example.com/products/sample-product"),
          ("product_variants", jArr [
            jObj [("variant_id", Json.str "v1"), ("variant_title", Json.str "Small"),
                  ("variant_available", Json.bool true), ("variant_price", Json.str "19.99"),
                  ("inventory_quantity", Json.num 12)],
            jObj [("variant_id", Json.str "v2"), ("variant_title", Json.str "Large"),
                  ("variant_available", Json.bool false), ("variant_price", Json.str "24.99"),
                  ("inventory_quantity", Json.num 0)]])]])]),
    ("triggerUpsell", jObj [
      ("type", Json.str "products"),
      ("selectedUpsellProducts", jArr [
        jObj [
          ("product_id", Json.str "u1"),
          ("product_title", Json.str "Upsell Sample"),
          ("product_variants", jArr [
            jObj [("variant_id", Json.str "uv1"), ("variant_title", Json.str "One Size"),
                  ("variant_available", Json.bool true), ("variant_price", Json.str "9.99"),
                  ("inventory_quantity", Json.num 100)]])]])])]

/-- The `tinyExample` fixture (App.jsx:80-118): one trigger set. -/
def tinyExample : List Json := [tinyExampleSet]

/-- The pieces of component state that the ingest handlers read and
write: the paste box, the loaded trigger-set collection, and the error
message. -/
structure AppState where
  raw : String
  sets : List Json
  error : String

/-- Model of `handleParse` (App.jsx:291-303): parse the pasted text
(falling back to `tinyExample` when the box is blank); an empty parse
result throws, which the handler catches by recording the message and
leaving `sets` alone; otherwise `sets` is replaced. -/
def handleParse (s : AppState) : AppState :=
  let chunks := if ¬(trimChars s.raw.data).isEmpty then parsePossiblyMany s.raw else tinyExample
  if chunks.isEmpty then
    { s with error := "Could not parse any JSON objects." }
  else
    { s with sets := chunks, error := "" }

/-- Model of `onFiles` (App.jsx:279-289) applied to the decoded file
texts: parse each file, and either record the error (leaving `sets`
alone) or append all parsed chunks. -/
def onFiles (texts : List String) (s : AppState) : AppState :=
  let parsedChunks := texts.flatMap (fun t => parsePossiblyMany t)
  if parsedChunks.isEmpty then
    { s with error := "No valid JSON objects found in selected files." }
  else
    { s with sets := s.sets ++ parsedChunks, error := "" }

/-! ### Numeric coercions (`Number(...)`) -/

/-- Decimal-literal part of `Number(str)`: optional sign, then digits
with at most one decimal point (at least one digit overall), for
`Infinity` forms are not modelled (no claim exercises them); `none`
models `NaN`. -/
def parseJsDecimal (cs : List Char) : Option Rat :=
  let signed : Bool × List Char :=
    match cs with
    | '-' :: rest => (true, rest)
    | '+' :: rest => (false, rest)
    | _ => (false, cs)
  let ip := signed.2.takeWhile Char.isDigit
  let rest := signed.2.dropWhile Char.isDigit
  let mag : Option Rat :=
    match rest with
    | [] => if ip.isEmpty then none else some ((digitsVal ip : Int) : Rat)
    | '.' :: fr =>
      let fp := fr.takeWhile Char.isDigit
      let rest2 := fr.dropWhile Char.isDigit
      if ¬rest2.isEmpty then none
      else if ip.isEmpty ∧ fp.isEmpty then none
      else some (((digitsVal ip : Int) : Rat) + ((digitsVal fp : Int) : Rat) / ((10 : Rat) ^ fp.length))
    | _ => none
  match mag with
  | some m => some (if signed.1 then -m else m)
  | none => none

/-- Model of `Number(str)`: trim; the empty string is `0`; otherwise
the decimal-literal grammar above. -/
def jsNumberOfString (s : String) : Option Rat :=
  let t := trimChars s.data
  if t.isEmpty then some 0 else parseJsDecimal t

/-- Model of `Number(v)` on a JSON value.  Arrays and objects coerce
through their string forms, which no claim exercises; they are modelled
as `NaN`. -/
def jsNumber (v : Json) : Option Rat :=
  match v with
  | .num n => some ((n : Int) : Rat)
  | .str s => jsNumberOfString s
  | .bool b => some (if b then 1 else 0)
  | .null => some 0
  | .arr _ => none
  | .obj _ => none

/-! ### The price-range filter (App.jsx:411-413) -/

/-- The local `toNum` (App.jsx:411): `null`/`undefined`/`""` map to
`NaN`, everything else through `Number(...)`. -/
def toNum (v : Option Json) : Option Rat :=
  match v with
  | none => none
  | some .null => none
  | some (.str "") => none
  | some x => jsNumber x

/-- `a >= b` under JavaScript `NaN` semantics (`none` is `NaN`). -/
def jsGe (a b : Option Rat) : Bool :=
  match a, b with
  | some a, some b => b ≤ a
  | _, _ => false

/-- `a <= b` under JavaScript `NaN` semantics. -/
def jsLe (a b : Option Rat) : Bool :=
  match a, b with
  | some a, some b => a ≤ b
  | _, _ => false

/-- The two price-bound filter steps (App.jsx:412-413), applied in
source order: each is skipped when its text field is the empty string. -/
def applyPriceFilter (minPrice maxPrice : String) (rows : List Row) : List Row :=
  let rows1 :=
    if minPrice ≠ "" then
      rows.filter (fun row => jsGe (toNum (rowGet row "variant_price")) (jsNumberOfString minPrice))
    else rows
  if maxPrice ≠ "" then
    rows1.filter (fun row => jsLe (toNum (rowGet row "variant_price")) (jsNumberOfString maxPrice))
  else rows1

/-! ### Pagination (App.jsx:319, 438-440) -/

/-- The fixed page size (App.jsx:319). -/
def pageSize : Nat := 15

/-- `Math.max(1, Math.ceil(filtered.length / pageSize))` (App.jsx:438);
the ceiling of the real-number division is `(n + 14) / 15` on naturals. -/
def totalPages (filteredLen : Nat) : Nat :=
  max 1 ((filteredLen + (pageSize - 1)) / pageSize)

/-- `Math.min(page, totalPages)` (App.jsx:439). -/
def currentPage (page : Nat) (filteredLen : Nat) : Nat :=
  min page (totalPages filteredLen)

/-- `filtered.slice((currentPage - 1) * pageSize, currentPage * pageSize)`
(App.jsx:440). -/
def pageRows (page : Nat) (filtered : List Row) : List Row :=
  ((filtered.drop ((currentPage page filtered.length - 1) * pageSize)).take
    (currentPage page filtered.length * pageSize - (currentPage page filtered.length - 1) * pageSize))

/-! ### CSV export (App.jsx:462-467) -/

/-- Double every double-quote character (`replaceAll('"', '""')`). -/
def escQuotes : List Char → List Char
  | [] => []
  | c :: cs => if c = '"' then '"' :: '"' :: escQuotes cs else c :: escQuotes cs

/-- Whether a cell (`includes` checks, App.jsx:465) must be wrapped. -/
def needsQuotes (l : List Char) : Bool :=
  l.any (fun c => c = ',' || c = '\n' || c = '"')

/-- Model of the `toCSV` cell serializer (App.jsx:462-467) on the
string-or-missing cells the claims exercise: `null`/`undefined` become
`""`; otherwise (`String()` of a string being the string itself) quotes
are doubled and the cell is wrapped in double quotes when it contains a
comma, newline or double quote. -/
def toCSV (val : Option String) : String :=
  match val with
  | none => ""
  | some s =>
    let str := escQuotes s.data
    if needsQuotes str then ⟨'"' :: str ++ ['"']⟩ else ⟨str⟩

/-- Collapse doubled double-quote characters. -/
def unescQuotes : List Char → List Char
  | [] => []
  | [c] => [c]
  | c :: c2 :: cs =>
    if c = '"' ∧ c2 = '"' then '"' :: unescQuotes cs
    else c :: unescQuotes (c2 :: cs)

/-- Modelled from the spec: the re-parser of a single CSV cell that
"honors the quoting rule" in the round-trip property of §8(7) — the
spec describes re-parsing the exported CSV, and the repository contains
no such reader.  A cell beginning with a double quote is unwrapped and
its doubled quotes collapsed; any other cell stands for itself. -/
def specParseCsvCell (s : String) : String :=
  match s.data with
  | [] => s
  | c :: rest => if c = '"' then ⟨unescQuotes rest.dropLast⟩ else s

/-! ### The exploratory variant's product summaries
(product_explorer_upload_filter_visualize.jsx:79-110) -/

/-- `String(v).replace(/[^\d.\-]/g, "")`: keep digits, decimal points
and minus signs (wherever they occur), drop everything else. -/
def stripNonNum (l : List Char) : List Char :=
  l.filter (fun c => c.isDigit || c = '.' || c = '-')

/-- Model of `asNumber` (product_explorer:79-83).  `undefined`, `null`
and `""` are `null`; a number is itself; a string is stripped and fed
to `Number(...)` (an empty stripped string giving `0`); a boolean
coerces through its string form, whose stripped form is empty, hence
`0`; an object's string form `"[object Object]"` likewise strips to
`0`; an array's string form depends on its contents and is not
modelled (no claim exercises one).  Every value the model produces is
finite, so the `Number.isFinite` guard only rejects `NaN` (`none`);
the float64 overflow of 300-digit literals is not modelled. -/
def asNumber (v : Option Json) : Option Rat :=
  match v with
  | none => none
  | some .null => none
  | some (.num n) => some ((n : Int) : Rat)
  | some (.str s) => if s = "" then none else jsNumberOfString ⟨stripNonNum s.data⟩
  | some (.bool _) => some 0
  | some (.obj _) => some 0
  | some (.arr _) => none

/-- The summary row built by `deriveProductRow`
(product_explorer:85-110). -/
structure ProductRow where
  source : String
  product_id : Option Json
  product_title : Option Json
  product_description : Option Json
  product_handle : Option Json
  product_vendor : Option Json
  product_tags : Option Json
  product_collections : Option Json
  product_url : Option Json
  product_image : Option Json
  product_variants : List Json
  price_min : Option Rat
  price_max : Option Rat
  inventory_total : Option Rat
  available : Option Bool

/-- The variants list used by `deriveProductRow`
(`Array.isArray(p.product_variants) ? p.product_variants : []`). -/
def rowVariants (p : Json) : List Json :=
  match p.getField "product_variants" with
  | some (.arr xs) => xs.toList
  | _ => []

/-- The coerced variant prices (`variants.map(asNumber).filter(≠ null)`). -/
def coercedPrices (p : Json) : List Rat :=
  (rowVariants p).filterMap (fun v => asNumber (v.getField "variant_price"))

/-- The coerced inventory quantities. -/
def coercedInventories (p : Json) : List Rat :=
  (rowVariants p).filterMap (fun v => asNumber (v.getField "inventory_quantity"))

/-- Model of `deriveProductRow` (product_explorer:85-110):
`Math.min(...prices)` / `Math.max(...prices)` when any price coerced,
`inv.reduce((a, b) => a + b)` when any inventory coerced, and
`variants.some(v => Boolean(v.variant_available))` when variants exist. -/
def deriveProductRow (p : Json) (source : String) : ProductRow :=
  let variants := rowVariants p
  let prices := coercedPrices p
  let inv := coercedInventories p
  { source := source,
    product_id := p.getField "product_id",
    product_title := p.getField "product_title",
    product_description := p.getField "product_description",
    product_handle := p.getField "product_handle",
    product_vendor := p.getField "product_vendor",
    product_tags := p.getField "product_tags",
    product_collections := p.getField "product_collections",
    product_url := p.getField "product_url",
    product_image := p.getField "product_image",
    product_variants := variants,
    price_min := match prices with | [] => none | x :: xs => some (xs.foldl min x),
    price_max := match prices with | [] => none | x :: xs => some (xs.foldl max x),
    inventory_total := match inv with | [] => none | x :: xs => some (xs.foldl (· + ·) x),
    available := match variants with
      | [] => none
      | _ :: _ => some (variants.any (fun v => jsTruthyOpt (v.getField "variant_available"))) }

/-! ### Concrete fixtures used in the theorems below -/

/-- A flattened row whose `variant_price` is the string `"24.99"`. -/
def samplePriceRow : Row := [("variant_price", some (Json.str "24.99"))]

/-- A flattened row whose `variant_price` does not coerce to a number. -/
def unpricedRow : Row := [("variant_price", some (Json.str "abc"))]

/-- The example's upsell product (one variant: price "9.99",
inventory 100, available). -/
def upsellSampleProduct : Json :=
  jObj [
    ("product_id", Json.str "u1"),
    ("product_title", Json.str "Upsell Sample"),
    ("product_variants", jArr [
      jObj [("variant_id", Json.str "uv1"), ("variant_title", Json.str "One Size"),
            ("variant_available", Json.bool true), ("variant_price", Json.str "9.99"),
            ("inventory_quantity", Json.num 100)]])]

/-- Newline-join of a list of lines: the shape of an input that
serializes several values one per line (`lines.join('\n')`). -/
def joinNl : List (List Char) → List Char
  | [] => []
  | [l] => l
  | l :: l2 :: ls => l ++ '\n' :: joinNl (l2 :: ls)

/-- Newline-delimited serialization: one `JSON.stringify` per line. -/
def ndjsonOf (vs : List Json) : String := ⟨joinNl (vs.map strChars)⟩

/-! ## Lemmas and theorems -/

/-! ### C5: CSV cell escaping -/

theorem escQuotes_of_no_quote {l : List Char} (h : ∀ c ∈ l, c ≠ '"') :
    escQuotes l = l := by
  induction l with
  | nil => rfl
  | cons c cs ih =>
    have hc : c ≠ '"' := h c (by simp)
    simp only [escQuotes, if_neg hc]
    rw [ih (fun d hd => h d (by simp [hd]))]

theorem escQuotes_nil_iff {l : List Char} : escQuotes l = [] ↔ l = [] := by
  cases l with
  | nil => simp [escQuotes]
  | cons c cs =>
    simp only [escQuotes]
    by_cases hc : c = '"' <;> simp [hc]

theorem needsQuotes_escQuotes (l : List Char) :
    needsQuotes (escQuotes l) = needsQuotes l := by
  induction l with
  | nil => rfl
  | cons c cs ih =>
    by_cases hc : c = '"'
    · subst hc
      simp [escQuotes, needsQuotes, List.any_cons]
    · simp only [escQuotes, if_neg hc, needsQuotes, List.any_cons]
      simp only [needsQuotes] at ih
      rw [ih]

theorem unescQuotes_escQuotes (l : List Char) :
    unescQuotes (escQuotes l) = l := by
  induction l with
  | nil => rfl
  | cons c cs ih =>
    by_cases hc : c = '"'
    · subst hc
      simp only [escQuotes, if_pos rfl, unescQuotes]
      simp [ih]
    · simp only [escQuotes, if_neg hc]
      cases h : escQuotes cs with
      | nil =>
        have h0 : cs = [] := escQuotes_nil_iff.mp h
        subst h0
        rfl
      | cons e es =>
        rw [show unescQuotes (c :: e :: es)
            = if c = '"' ∧ e = '"' then '"' :: unescQuotes es
              else c :: unescQuotes (e :: es) from rfl]
        rw [if_neg (fun hand : c = '"' ∧ e = '"' => hc hand.1)]
        rw [← h, ih]

theorem no_quote_of_not_needsQuotes {l : List Char} (h : needsQuotes l = false) :
    ∀ c ∈ l, c ≠ '"' := by
  intro c hc heq
  subst heq
  have h2 : ¬ needsQuotes l = true := by simp [h]
  apply h2
  simp only [needsQuotes, List.any_eq_true]
  exact ⟨'"', hc, by decide⟩

/-- C5: a CSV cell value is `String()`-coerced with `null`/`undefined`
becoming the empty string, embedded double quotes are doubled, the cell
is wrapped in double quotes exactly when the value contains a comma,
newline or double quote (and is otherwise left verbatim), the concrete
value `He said "hi", ok` serializes to `"He said ""hi"", ok"`, and
re-parsing any exported cell under the quoting rule recovers the
original value exactly. -/
theorem C5_csv_cell_escaping :
    toCSV (some "He said \"hi\", ok") = "\"He said \"\"hi\"\", ok\""
    ∧ toCSV none = ""
    ∧ (∀ s : String,
        toCSV (some s) =
          if needsQuotes s.data then ⟨'"' :: escQuotes s.data ++ ['"']⟩ else s)
    ∧ (∀ s : String, specParseCsvCell (toCSV (some s)) = s) := by
  refine ⟨rfl, rfl, ?_, ?_⟩
  · intro s
    simp only [toCSV, needsQuotes_escQuotes]
    by_cases h : needsQuotes s.data
    · simp [h]
    · have hf : needsQuotes s.data = false := by simpa using h
      simp only [hf, if_false, Bool.false_eq_true]
      rw [escQuotes_of_no_quote (no_quote_of_not_needsQuotes hf)]
  · intro s
    simp only [toCSV]
    by_cases h : needsQuotes (escQuotes s.data)
    · simp only [h, if_true]
      show specParseCsvCell ⟨'"' :: escQuotes s.data ++ ['"']⟩ = s
      rw [show specParseCsvCell ⟨'"' :: escQuotes s.data ++ ['"']⟩
          = ⟨unescQuotes ((escQuotes s.data ++ ['"']).dropLast)⟩ from rfl]
      rw [List.dropLast_concat, unescQuotes_escQuotes]
    · have hf : needsQuotes s.data = false := by
        rw [needsQuotes_escQuotes] at h
        simpa using h
      simp only [needsQuotes_escQuotes, hf, Bool.false_eq_true, if_false]
      rw [escQuotes_of_no_quote (no_quote_of_not_needsQuotes hf)]
      show specParseCsvCell ⟨s.data⟩ = ⟨s.data⟩
      cases hd : s.data with
      | nil => simp [specParseCsvCell, hd]
      | cons c rest =>
        have hc : c ≠ '"' :=
          no_quote_of_not_needsQuotes hf c (by simp [hd])
        simp [specParseCsvCell, hd, hc]

/-! ### C6: pagination -/

/-- C6: the page count is `ceil(filteredCount / 15)` with a minimum of
1, the displayed page is clamped into `[1, totalPages]` for any held
page number (which the handlers keep at least 1), and for a 32-row
filtered set: 3 total pages, page 1 showing rows 1-15, page 2 rows
16-30, page 3 rows 31-32, and a requested page 5 clamping to page 3. -/
theorem C6_pagination :
    (∀ page n, 1 ≤ page → 1 ≤ currentPage page n ∧ currentPage page n ≤ totalPages n)
    ∧ totalPages 0 = 1
    ∧ totalPages 32 = 3
    ∧ currentPage 5 32 = 3
    ∧ (∀ rows : List Row, rows.length = 32 →
        pageRows 1 rows = rows.take 15
        ∧ pageRows 2 rows = (rows.drop 15).take 15
        ∧ pageRows 3 rows = rows.drop 30
        ∧ pageRows 5 rows = rows.drop 30) := by
  refine ⟨?_, rfl, rfl, rfl, ?_⟩
  · intro page n hp
    constructor
    · exact le_min hp (le_max_left 1 _)
    · exact min_le_right _ _
  · intro rows hlen
    have h30 : rows.drop 30 = (rows.drop 30).take 15 := by
      rw [List.take_of_length_le]
      rw [List.length_drop, hlen]
      omega
    refine ⟨?tp, ?cp, ?pr, ?lb⟩
    · simp [pageRows, hlen, currentPage, totalPages, pageSize]
    · simp [pageRows, hlen, currentPage, totalPages, pageSize]
    · rw [h30]
      simp [pageRows, hlen, currentPage, totalPages, pageSize]
    · rw [h30]
      simp [pageRows, hlen, currentPage, totalPages, pageSize]

/-- Witness for C6 at page 2 of a concrete 32-row set. -/
theorem C6_pagination_witness :
    (1 ≤ currentPage 2 32 ∧ currentPage 2 32 ≤ totalPages 32)
    ∧ pageRows 3 (List.replicate 32 ([] : Row))
        = (List.replicate 32 ([] : Row)).drop 30 :=
  ⟨C6_pagination.1 2 32 (by decide),
   (C6_pagination.2.2.2.2 (List.replicate 32 []) (by simp)).2.2.1⟩

/-! ### C7: the price-range filter -/

theorem toNum_samplePriceRow :
    toNum (rowGet samplePriceRow "variant_price")
      = some (((24 : Int) : Rat) + ((99 : Int) : Rat) / (10 : Rat) ^ 2) := rfl

/-- C7: with price `"24.99"` the row is retained for min=20/max=30 and
for min=max=24.99 (inclusive bounds), excluded for min=25 and for
max=24; and any row whose price coerces to `NaN` is excluded whenever
either bound is set. -/
theorem C7_price_range_filter :
    applyPriceFilter "20" "30" [samplePriceRow] = [samplePriceRow]
    ∧ applyPriceFilter "24.99" "24.99" [samplePriceRow] = [samplePriceRow]
    ∧ applyPriceFilter "25" "" [samplePriceRow] = []
    ∧ applyPriceFilter "" "24" [samplePriceRow] = []
    ∧ (∀ (rows : List Row) (r : Row) (minP maxP : String),
        toNum (rowGet r "variant_price") = none → (minP ≠ "" ∨ maxP ≠ "") →
        r ∉ applyPriceFilter minP maxP rows) := by
  have hval : toNum (rowGet samplePriceRow "variant_price")
      = some (((24 : Int) : Rat) + ((99 : Int) : Rat) / (10 : Rat) ^ 2) := rfl
  refine ⟨?inr, ?exl, ?exh, ?eqk, ?nan⟩
  · have hge : jsGe (toNum (rowGet samplePriceRow "variant_price"))
        (jsNumberOfString "20") = true := by
      rw [hval, show jsNumberOfString "20" = some ((20 : Int) : Rat) from rfl]
      simp only [jsGe, decide_eq_true_eq]
      norm_num
    have hle : jsLe (toNum (rowGet samplePriceRow "variant_price"))
        (jsNumberOfString "30") = true := by
      rw [hval, show jsNumberOfString "30" = some ((30 : Int) : Rat) from rfl]
      simp only [jsLe, decide_eq_true_eq]
      norm_num
    simp [applyPriceFilter, List.filter, hge, hle]
  · have hb : jsNumberOfString "24.99"
        = some (((24 : Int) : Rat) + ((99 : Int) : Rat) / (10 : Rat) ^ 2) := rfl
    have hge : jsGe (toNum (rowGet samplePriceRow "variant_price"))
        (jsNumberOfString "24.99") = true := by
      rw [hval, hb]
      simp only [jsGe, decide_eq_true_eq]
      exact le_rfl
    have hle : jsLe (toNum (rowGet samplePriceRow "variant_price"))
        (jsNumberOfString "24.99") = true := by
      rw [hval, hb]
      simp only [jsLe, decide_eq_true_eq]
      exact le_rfl
    simp [applyPriceFilter, List.filter, hge, hle]
  · have hge : jsGe (toNum (rowGet samplePriceRow "variant_price"))
        (jsNumberOfString "25") = false := by
      rw [hval, show jsNumberOfString "25" = some ((25 : Int) : Rat) from rfl]
      simp only [jsGe, decide_eq_false_iff_not]
      norm_num
    simp [applyPriceFilter, List.filter, hge]
  · have hle : jsLe (toNum (rowGet samplePriceRow "variant_price"))
        (jsNumberOfString "24") = false := by
      rw [hval, show jsNumberOfString "24" = some ((24 : Int) : Rat) from rfl]
      simp only [jsLe, decide_eq_false_iff_not]
      norm_num
    simp [applyPriceFilter, List.filter, hle]
  · intro rows r minP maxP hnan hbound hmem
    unfold applyPriceFilter at hmem
    by_cases hmin : minP = ""
    · have hmax : maxP ≠ "" := by
        rcases hbound with h | h
        · exact absurd hmin h
        · exact h
      simp only [hmin, ne_eq, not_true_eq_false, if_false, if_neg, hmax,
        not_false_eq_true, if_true] at hmem
      have := (List.mem_filter.mp hmem).2
      rw [hnan] at this
      simp [jsLe] at this
    · simp only [ne_eq, hmin, not_false_eq_true, if_true] at hmem
      have hr1 : r ∈ rows.filter
          (fun row => jsGe (toNum (rowGet row "variant_price")) (jsNumberOfString minP)) := by
        by_cases hmax : maxP ≠ ""
        · rw [if_pos hmax] at hmem
          exact (List.mem_filter.mp hmem).1
        · rw [if_neg hmax] at hmem
          exact hmem
      have := (List.mem_filter.mp hr1).2
      rw [hnan] at this
      simp [jsGe] at this

/-- Witness for C7's unparsable-price clause at a concrete row. -/
theorem C7_price_range_filter_witness :
    toNum (rowGet unpricedRow "variant_price") = none
    ∧ (("25" : String) ≠ "" ∨ ("" : String) ≠ "")
    ∧ unpricedRow ∉ applyPriceFilter "25" "" [unpricedRow] :=
  ⟨rfl, Or.inl (by decide),
   C7_price_range_filter.2.2.2.2 [unpricedRow] unpricedRow "25" "" rfl (Or.inl (by decide))⟩

/-! ### C9 and C4: reading flattened rows -/

theorem rowGetEntry_append_of_some {l2 : Row} {k : String} {r : Option Json}
    (l1 : Row) (h : rowGetEntry l2 k = some r) :
    rowGetEntry (l1 ++ l2) k = some r := by
  induction l1 with
  | nil => simpa using h
  | cons e tl ih =>
    obtain ⟨k2, v⟩ := e
    show (match rowGetEntry (tl ++ l2) k with
      | some r => some r
      | none => if k2 = k then some v else none) = some r
    rw [ih]

theorem rowGetEntry_append_of_none {l2 : Row} {k : String}
    (l1 : Row) (h : rowGetEntry l2 k = none) :
    rowGetEntry (l1 ++ l2) k = rowGetEntry l1 k := by
  induction l1 with
  | nil => simpa using h
  | cons e tl ih =>
    obtain ⟨k2, v⟩ := e
    show (match rowGetEntry (tl ++ l2) k with
      | some r => some r
      | none => if k2 = k then some v else none)
      = match rowGetEntry tl k with
        | some r => some r
        | none => if k2 = k then some v else none
    rw [ih]

theorem rowGetEntry_fieldsMap : ∀ (fs : JsonFields) (k : String),
    rowGetEntry (fs.toList.map (fun kv => (kv.1, some kv.2))) k
      = (fs.lookupLast k).map some
  | .nil, _ => rfl
  | .cons k2 v tl, k => by
    have ih := rowGetEntry_fieldsMap tl k
    simp only [JsonFields.toList, List.map_cons, rowGetEntry, ih,
      JsonFields.lookupLast]
    cases tl.lookupLast k with
    | some r => rfl
    | none =>
      by_cases hk : k2 = k
      · simp [hk]
      · simp [hk]
  termination_by structural fs => fs

theorem lookupLast_isSome_eq_hasKey : ∀ (fs : JsonFields) (k : String),
    (fs.lookupLast k).isSome = fs.hasKey k
  | .nil, _ => rfl
  | .cons k2 v tl, k => by
    have ih := lookupLast_isSome_eq_hasKey tl k
    simp only [JsonFields.lookupLast, JsonFields.hasKey]
    cases h : tl.lookupLast k with
    | some r =>
      rw [h] at ih
      simp [← ih]
    | none =>
      rw [h] at ih
      by_cases hk : k2 = k
      · simp [hk]
      · simp [hk, ← ih]
  termination_by structural fs => fs

theorem rowGetEntry_spread_of_hasKey {v : Json} {k : String}
    (h : v.hasKey k = true) :
    rowGetEntry (spreadFields v) k = (v.getField k).map some ∧
      (v.getField k).isSome = true := by
  cases v with
  | obj fs =>
    refine ⟨rowGetEntry_fieldsMap fs k, ?_⟩
    rw [show (Json.obj fs).getField k = fs.lookupLast k from rfl,
      lookupLast_isSome_eq_hasKey]
    exact h
  | null => exact absurd h (by simp [Json.hasKey])
  | bool b => exact absurd h (by simp [Json.hasKey])
  | num n => exact absurd h (by simp [Json.hasKey])
  | str s => exact absurd h (by simp [Json.hasKey])
  | arr xs => exact absurd h (by simp [Json.hasKey])

theorem rowGetEntry_spread_of_not_hasKey {v : Json} {k : String}
    (h : v.hasKey k = false) :
    rowGetEntry (spreadFields v) k = none := by
  cases v with
  | obj fs =>
    rw [show spreadFields (Json.obj fs)
        = fs.toList.map (fun kv => (kv.1, some kv.2)) from rfl]
    rw [rowGetEntry_fieldsMap]
    have : (fs.lookupLast k).isSome = false := by
      rw [lookupLast_isSome_eq_hasKey]
      exact h
    cases hl : fs.lookupLast k with
    | some r => rw [hl] at this; simp at this
    | none => rfl
  | null => rfl
  | bool b => rfl
  | num n => rfl
  | str s => rfl
  | arr xs => rfl

theorem rowGet_mkRow_of_hasKey {v : Json} {k : String}
    (idx : Nat) (ty : String) (p : Json) (h : v.hasKey k = true) :
    rowGet (mkRow idx ty p v) k = v.getField k := by
  obtain ⟨hspread, hsome⟩ := rowGetEntry_spread_of_hasKey h
  obtain ⟨val, hval⟩ := Option.isSome_iff_exists.mp hsome
  rw [hval] at hspread
  unfold mkRow rowGet
  rw [rowGetEntry_append_of_some _ hspread, hval]
  rfl

theorem rowGet_mkRow_set_index {v : Json}
    (idx : Nat) (ty : String) (p : Json) (h : v.hasKey "set_index" = false) :
    rowGet (mkRow idx ty p v) "set_index" = some (Json.num (idx : Int)) := by
  unfold mkRow rowGet
  rw [rowGetEntry_append_of_none _ (rowGetEntry_spread_of_not_hasKey h)]
  rfl

theorem rowGet_mkRow_trigger_type {v : Json}
    (idx : Nat) (ty : String) (p : Json) (h : v.hasKey "trigger_type" = false) :
    rowGet (mkRow idx ty p v) "trigger_type" = some (Json.str ty) := by
  unfold mkRow rowGet
  rw [rowGetEntry_append_of_none _ (rowGetEntry_spread_of_not_hasKey h)]
  rfl

/-- C9: in a flattened row the variant's own fields are spread after
the contextual fields, so `set_index` carries the set's position and
`trigger_type` the role exactly in the no-collision case, and any key
the variant itself defines (including `set_index`, `trigger_type` or a
`product_*` field) reads back as the variant's value. -/
theorem C9_variant_spread_overrides (idx : Nat) (ty : String) (product variant : Json) :
    (rowGet (mkRow idx ty product variant) "set_index"
      = if variant.hasKey "set_index" then variant.getField "set_index"
        else some (Json.num (idx : Int)))
    ∧ (rowGet (mkRow idx ty product variant) "trigger_type"
      = if variant.hasKey "trigger_type" then variant.getField "trigger_type"
        else some (Json.str ty))
    ∧ (∀ k : String, variant.hasKey k = true →
        rowGet (mkRow idx ty product variant) k = variant.getField k) := by
  refine ⟨?_, ?_, fun k h => rowGet_mkRow_of_hasKey idx ty product h⟩
  · by_cases h : variant.hasKey "set_index"
    · rw [if_pos h]
      exact rowGet_mkRow_of_hasKey idx ty product h
    · rw [if_neg h]
      exact rowGet_mkRow_set_index idx ty product (by simpa using h)
  · by_cases h : variant.hasKey "trigger_type"
    · rw [if_pos h]
      exact rowGet_mkRow_of_hasKey idx ty product h
    · rw [if_neg h]
      exact rowGet_mkRow_trigger_type idx ty product (by simpa using h)

/-- Witness for C9 with a variant that itself defines `set_index`. -/
theorem C9_variant_spread_overrides_witness :
    (jObj [("set_index", Json.num 99)]).hasKey "set_index" = true
    ∧ rowGet (mkRow 0 "product" (jObj []) (jObj [("set_index", Json.num 99)])) "set_index"
      = some (Json.num 99) := by
  refine ⟨rfl, ?_⟩
  have h := (C9_variant_spread_overrides 0 "product" (jObj [])
    (jObj [("set_index", Json.num 99)])).1
  rw [if_pos (show (jObj [("set_index", Json.num 99)]).hasKey "set_index" = true
    from rfl)] at h
  exact h

theorem addRows_length (idx : Nat) (ty : String) (ps : List Json) :
    (addRows idx ty ps).length = variantTotal ps := by
  induction ps with
  | nil => rfl
  | cons p tl ih =>
    simp only [addRows, variantTotal, List.flatMap_cons, List.length_append,
      List.length_map, List.map_cons, List.sum_cons]
    rw [show (tl.flatMap fun p =>
        (asElems (p.getField "product_variants")).map (fun v => mkRow idx ty p v))
        = addRows idx ty tl from rfl, ih, variantTotal]

theorem map_trigger_type_mkRows (idx : Nat) (ty : String) (p : Json)
    (vs : List Json) (h : ∀ v ∈ vs, v.hasKey "trigger_type" = false) :
    (vs.map (fun v => mkRow idx ty p v)).map (fun r => rowGet r "trigger_type")
      = List.replicate vs.length (some (Json.str ty)) := by
  induction vs with
  | nil => rfl
  | cons v tl ih =>
    simp only [List.map_cons, List.length_cons]
    rw [rowGet_mkRow_trigger_type idx ty p (h v (by simp)),
      ih (fun w hw => h w (by simp [hw]))]
    rfl

theorem addRows_trigger_type (idx : Nat) (ty : String) (ps : List Json)
    (h : ∀ p ∈ ps, ∀ v ∈ asElems (p.getField "product_variants"),
      v.hasKey "trigger_type" = false) :
    (addRows idx ty ps).map (fun r => rowGet r "trigger_type")
      = List.replicate (variantTotal ps) (some (Json.str ty)) := by
  induction ps with
  | nil => rfl
  | cons p tl ih =>
    simp only [addRows, List.flatMap_cons, List.map_append]
    rw [show (tl.flatMap fun p =>
        (asElems (p.getField "product_variants")).map (fun v => mkRow idx ty p v))
        = addRows idx ty tl from rfl]
    rw [ih (fun q hq v hv => h q (by simp [hq]) v hv)]
    rw [map_trigger_type_mkRows idx ty p _ (h p (by simp))]
    rw [show variantTotal (p :: tl)
        = (asElems (p.getField "product_variants")).length + variantTotal tl by
      simp [variantTotal]]
    rw [List.replicate_add]

theorem flatVariants_enumFrom_length (n : Nat) (sets : List Json) :
    ((List.enumFrom n sets).flatMap (fun p =>
      addRows p.1 "product" (selProducts p.2 "triggerProduct" "selectedTriggerProducts")
        ++ addRows p.1 "upsell" (selProducts p.2 "triggerUpsell" "selectedUpsellProducts"))).length
      = (sets.map (fun t =>
          variantTotal (triggerProductsOf t) + variantTotal (upsellProductsOf t))).sum := by
  induction sets generalizing n with
  | nil => rfl
  | cons s tl ih =>
    simp only [List.enumFrom, List.flatMap_cons, List.length_append, List.map_cons,
      List.sum_cons, ih (n + 1), addRows_length]
    rfl

/-- C4: variant-row flattening emits one row per (set, role, product,
variant): over any loaded sequence the row count is the sum over sets
of their trigger-role and upsell-role variant totals (products with no
variants and absent `triggerProduct`/`triggerUpsell` blocks contribute
zero, without error), and for a single TriggerSet with M trigger-role
and P upsell-role variants the M + P rows carry `trigger_type`
`"product"` for the first M and `"upsell"` for the remaining P, in
product/variant input order (for variants that do not themselves define
a `trigger_type` key, per C9). -/
theorem C4_flatten_variant_rows (sets : List Json) (s : Json)
    (h : ∀ p ∈ triggerProductsOf s ++ upsellProductsOf s,
        ∀ v ∈ asElems (p.getField "product_variants"), v.hasKey "trigger_type" = false) :
    (flatVariants sets).length
      = (sets.map (fun t =>
          variantTotal (triggerProductsOf t) + variantTotal (upsellProductsOf t))).sum
    ∧ (flatVariants [s]).length
      = variantTotal (triggerProductsOf s) + variantTotal (upsellProductsOf s)
    ∧ (flatVariants [s]).map (fun r => rowGet r "trigger_type")
      = List.replicate (variantTotal (triggerProductsOf s)) (some (Json.str "product"))
        ++ List.replicate (variantTotal (upsellProductsOf s)) (some (Json.str "upsell")) := by
  refine ⟨flatVariants_enumFrom_length 0 sets, ?_, ?_⟩
  · rw [show flatVariants [s]
        = addRows 0 "product" (triggerProductsOf s)
          ++ addRows 0 "upsell" (upsellProductsOf s) by
      simp [flatVariants, List.enum, List.enumFrom, triggerProductsOf, upsellProductsOf]]
    rw [List.length_append, addRows_length, addRows_length]
  · rw [show flatVariants [s]
        = addRows 0 "product" (triggerProductsOf s)
          ++ addRows 0 "upsell" (upsellProductsOf s) by
      simp [flatVariants, List.enum, List.enumFrom, triggerProductsOf, upsellProductsOf]]
    rw [List.map_append]
    rw [addRows_trigger_type 0 "product" _ (fun p hp => h p (by simp [hp]))]
    rw [addRows_trigger_type 0 "upsell" _ (fun p hp => h p (by simp [hp]))]

/-- Witness for C4 on the built-in example (2 trigger variants, 1
upsell variant). -/
theorem C4_flatten_variant_rows_witness :
    variantTotal (triggerProductsOf (jObj [])) = 0
    ∧ (flatVariants tinyExample).length = 3
    ∧ (flatVariants tinyExample).map (fun r => rowGet r "trigger_type")
      = [some (Json.str "product"), some (Json.str "product"), some (Json.str "upsell")] := by
  refine ⟨rfl, ?_, ?_⟩
  · have h := (C4_flatten_variant_rows tinyExample (jObj [])
      (by
        intro p hp
        rw [show (triggerProductsOf (jObj []) ++ upsellProductsOf (jObj [])
          : List Json) = [] from rfl] at hp
        exact absurd hp (List.not_mem_nil p))).1
    rw [h]
    rfl
  · have h := (C4_flatten_variant_rows tinyExample tinyExampleSet (by decide)).2.2
    rw [show flatVariants tinyExample = flatVariants [tinyExampleSet] from rfl, h]
    rfl

/-! ### C10: atomicity of the loaded collection on parse failure -/

/-- C10: when the Parse action's input parses to nothing (the built-in
upload's files together parse to nothing, the loaded trigger-set
collection is left exactly unchanged and only the error message is
set; conversely a successful parse clears the error. -/
theorem C10_parse_failure_atomicity (s : AppState) (texts : List String) :
    (¬(trimChars s.raw.data).isEmpty → parsePossiblyMany s.raw = [] →
      (handleParse s).sets = s.sets ∧ (handleParse s).raw = s.raw
        ∧ (handleParse s).error = "Could not parse any JSON objects.")
    ∧ (texts.flatMap (fun t => parsePossiblyMany t) = [] →
      (onFiles texts s).sets = s.sets ∧ (onFiles texts s).raw = s.raw
        ∧ (onFiles texts s).error = "No valid JSON objects found in selected files.")
    ∧ (∀ chunks, parsePossiblyMany s.raw = chunks → chunks ≠ [] →
        ¬(trimChars s.raw.data).isEmpty →
        (handleParse s).sets = chunks ∧ (handleParse s).error = "") := by
  refine ⟨?hp, ?eo, ?fb⟩
  · intro hraw hempty
    simp [handleParse, hraw, hempty]
  · intro hempty
    simp [onFiles, hempty]
  · intro chunks hchunks hne hraw
    simp [handleParse, hraw, hchunks, hne]

/-- Witness for C10: the input `"\x7d\x7b"` parses to nothing and
leaves a loaded collection untouched, and a file list whose sole text
is unparsable appends nothing. -/
theorem C10_parse_failure_atomicity_witness :
    ¬(trimChars ("\x7d\x7b" : String).data).isEmpty
    ∧ parsePossiblyMany "\x7d\x7b" = []
    ∧ (handleParse ⟨"\x7d\x7b", tinyExample, ""⟩).sets = tinyExample
    ∧ (onFiles ["xyz"] ⟨"", tinyExample, ""⟩).sets = tinyExample := by
  refine ⟨by decide, rfl, ?_, ?_⟩
  · exact ((C10_parse_failure_atomicity ⟨"\x7d\x7b", tinyExample, ""⟩ []).1
      (by decide) rfl).1
  · exact ((C10_parse_failure_atomicity ⟨"", tinyExample, ""⟩ ["xyz"]).2.1 rfl).1

/-! ### C8: product-summary derivation -/

theorem foldl_min_mem {α : Type} [LinearOrder α] (xs : List α) :
    ∀ x : α, xs.foldl min x ∈ x :: xs := by
  induction xs with
  | nil => intro x; simp
  | cons y tl ih =>
    intro x
    simp only [List.foldl_cons]
    rcases List.mem_cons.mp (ih (min x y)) with h | h
    · rcases min_choice x y with h2 | h2 <;> rw [h, h2] <;> simp
    · simp [List.mem_cons, h]

theorem foldl_min_le {α : Type} [LinearOrder α] (xs : List α) :
    ∀ x q : α, q ∈ x :: xs → xs.foldl min x ≤ q := by
  induction xs with
  | nil =>
    intro x q hq
    simp at hq
    simp [hq]
  | cons y tl ih =>
    intro x q hq
    simp only [List.foldl_cons]
    rcases List.mem_cons.mp hq with h | h
    · subst h
      exact le_trans (ih (min q y) (min q y) (by simp)) (min_le_left q y)
    · rcases List.mem_cons.mp h with h2 | h2
      · subst h2
        exact le_trans (ih (min x q) (min x q) (by simp)) (min_le_right x q)
      · exact ih (min x y) q (by simp [h2])

theorem foldl_max_mem {α : Type} [LinearOrder α] (xs : List α) :
    ∀ x : α, xs.foldl max x ∈ x :: xs := by
  induction xs with
  | nil => intro x; simp
  | cons y tl ih =>
    intro x
    simp only [List.foldl_cons]
    rcases List.mem_cons.mp (ih (max x y)) with h | h
    · rcases max_choice x y with h2 | h2 <;> rw [h, h2] <;> simp
    · simp [List.mem_cons, h]

theorem foldl_max_ge {α : Type} [LinearOrder α] (xs : List α) :
    ∀ x q : α, q ∈ x :: xs → q ≤ xs.foldl max x := by
  induction xs with
  | nil =>
    intro x q hq
    simp at hq
    simp [hq]
  | cons y tl ih =>
    intro x q hq
    simp only [List.foldl_cons]
    rcases List.mem_cons.mp hq with h | h
    · subst h
      exact le_trans (le_max_left q y) (ih (max q y) (max q y) (by simp))
    · rcases List.mem_cons.mp h with h2 | h2
      · subst h2
        exact le_trans (le_max_right x q) (ih (max x q) (max x q) (by simp))
      · exact ih (max x y) q (by simp [h2])

theorem foldl_add_eq_sum (xs : List Rat) : ∀ x : Rat, xs.foldl (· + ·) x = x + xs.sum := by
  induction xs with
  | nil => intro x; simp
  | cons y tl ih =>
    intro x
    simp only [List.foldl_cons, List.sum_cons, ih (x + y)]
    ring

/-- C8: in a product summary, `price_min`/`price_max` are the least and
greatest coerced variant prices and are absent exactly when no variant
price coerces (the coercion keeping only digits, minus signs and
decimal points before parsing, per `asNumber`); `inventory_total` is
the sum of the coercible inventory quantities and absent when none is;
and `available` is true when some variant is available, false when
variants exist but none is, absent when there are no variants. -/
theorem C8_derive_product_row (p : Json) (src : String) :
    ((deriveProductRow p src).price_min = none ↔
      ∀ v ∈ rowVariants p, asNumber (v.getField "variant_price") = none)
    ∧ (∀ m : Rat, (deriveProductRow p src).price_min = some m →
        m ∈ coercedPrices p ∧ ∀ q ∈ coercedPrices p, m ≤ q)
    ∧ (∀ m : Rat, (deriveProductRow p src).price_max = some m →
        m ∈ coercedPrices p ∧ ∀ q ∈ coercedPrices p, q ≤ m)
    ∧ ((deriveProductRow p src).inventory_total = none ↔
      ∀ v ∈ rowVariants p, asNumber (v.getField "inventory_quantity") = none)
    ∧ (∀ t : Rat, (deriveProductRow p src).inventory_total = some t →
        t = (coercedInventories p).sum)
    ∧ ((deriveProductRow p src).available = some true ↔
      rowVariants p ≠ [] ∧ ∃ v ∈ rowVariants p,
        jsTruthyOpt (v.getField "variant_available") = true)
    ∧ ((deriveProductRow p src).available = some false ↔
      rowVariants p ≠ [] ∧ ∀ v ∈ rowVariants p,
        jsTruthyOpt (v.getField "variant_available") = false)
    ∧ ((deriveProductRow p src).available = none ↔ rowVariants p = []) := by
  have hmin : (deriveProductRow p src).price_min
      = match coercedPrices p with
        | [] => none
        | x :: xs => some (xs.foldl min x) := rfl
  have hmax : (deriveProductRow p src).price_max
      = match coercedPrices p with
        | [] => none
        | x :: xs => some (xs.foldl max x) := rfl
  have hinv : (deriveProductRow p src).inventory_total
      = match coercedInventories p with
        | [] => none
        | x :: xs => some (xs.foldl (· + ·) x) := rfl
  have havail : (deriveProductRow p src).available
      = match rowVariants p with
        | [] => none
        | _ :: _ => some ((rowVariants p).any
            (fun v => jsTruthyOpt (v.getField "variant_available"))) := rfl
  refine ⟨?pm, ?pmm, ?px, ?pxm, ?iv, ?ivs, ?av, ?avt⟩
  · rw [hmin]
    cases hp : coercedPrices p with
    | nil =>
      simp only [true_iff]
      rw [show (∀ v ∈ rowVariants p, asNumber (v.getField "variant_price") = none)
          ↔ coercedPrices p = [] from (List.filterMap_eq_nil_iff).symm, hp]
    | cons x xs =>
      simp only [reduceCtorEq, false_iff]
      intro hall
      have hnil : coercedPrices p = [] :=
        List.filterMap_eq_nil_iff.mpr (fun v hv => hall v hv)
      rw [hp] at hnil
      exact absurd hnil (by simp)
  · intro m hm
    rw [hmin] at hm
    cases hp : coercedPrices p with
    | nil => rw [hp] at hm; exact absurd hm (by simp)
    | cons x xs =>
      rw [hp] at hm
      have hme : xs.foldl min x = m := by simpa using hm
      subst hme
      exact ⟨hp ▸ foldl_min_mem xs x, fun q hq => foldl_min_le xs x q (hp ▸ hq)⟩
  · intro m hm
    rw [hmax] at hm
    cases hp : coercedPrices p with
    | nil => rw [hp] at hm; exact absurd hm (by simp)
    | cons x xs =>
      rw [hp] at hm
      have hme : xs.foldl max x = m := by simpa using hm
      subst hme
      exact ⟨hp ▸ foldl_max_mem xs x, fun q hq => foldl_max_ge xs x q (hp ▸ hq)⟩
  · rw [hinv]
    cases hp : coercedInventories p with
    | nil =>
      simp only [true_iff]
      rw [show (∀ v ∈ rowVariants p, asNumber (v.getField "inventory_quantity") = none)
          ↔ coercedInventories p = [] from (List.filterMap_eq_nil_iff).symm, hp]
    | cons x xs =>
      simp only [reduceCtorEq, false_iff]
      intro hall
      have hnil : coercedInventories p = [] :=
        List.filterMap_eq_nil_iff.mpr (fun v hv => hall v hv)
      rw [hp] at hnil
      exact absurd hnil (by simp)
  · intro t ht
    rw [hinv] at ht
    cases hp : coercedInventories p with
    | nil => rw [hp] at ht; exact absurd ht (by simp)
    | cons x xs =>
      rw [hp] at ht
      have hte : xs.foldl (· + ·) x = t := by simpa using ht
      rw [← hte, foldl_add_eq_sum, List.sum_cons]
  · rw [havail]
    cases hp : rowVariants p with
    | nil => simp
    | cons v tl =>
      show some ((v :: tl).any (fun w => jsTruthyOpt (w.getField "variant_available")))
          = some true ↔ _
      simp only [Option.some_inj, ne_eq, reduceCtorEq, not_false_eq_true, true_and]
      exact List.any_eq_true
  · rw [havail]
    cases hp : rowVariants p with
    | nil => simp
    | cons v tl =>
      show some ((v :: tl).any (fun w => jsTruthyOpt (w.getField "variant_available")))
          = some false ↔ _
      simp only [Option.some_inj, ne_eq, reduceCtorEq, not_false_eq_true, true_and]
      rw [List.any_eq_false]
      constructor
      · intro h w hw
        simpa using h w hw
      · intro h w hw
        simpa using h w hw
  · rw [havail]
    cases hp : rowVariants p with
    | nil => simp
    | cons v tl => simp

/-- Witness for C8 on the example's upsell product (one variant,
price "9.99", inventory 100, available). -/
theorem C8_derive_product_row_witness :
    (deriveProductRow upsellSampleProduct "upsell").price_min
      = some (((9 : Int) : Rat) + ((99 : Int) : Rat) / (10 : Rat) ^ 2)
    ∧ (((9 : Int) : Rat) + ((99 : Int) : Rat) / (10 : Rat) ^ 2)
        ∈ coercedPrices upsellSampleProduct := by
  have h1 : (deriveProductRow upsellSampleProduct "upsell").price_min
      = some (((9 : Int) : Rat) + ((99 : Int) : Rat) / (10 : Rat) ^ 2) := rfl
  exact ⟨h1, ((C8_derive_product_row upsellSampleProduct "upsell").2.1 _ h1).1⟩

/-! ### C1-C3: the serializer/parser round trip.  First, decimal
digits. -/

theorem digitChar_toNat_eq : ∀ d < 10, (digitChar d).toNat = 48 + d := by decide

theorem digitChar_isDigit : ∀ d < 10, (digitChar d).isDigit = true := by decide

theorem isDigit_not_ws {c : Char} (h : c.isDigit = true) : isWsChar c = false := by
  cases hw : isWsChar c with
  | false => rfl
  | true =>
    simp only [isWsChar, Bool.or_eq_true, decide_eq_true_eq] at hw
    rcases hw with ((h2 | h2) | h2) | h2 <;> subst h2 <;> exact absurd h (by decide)

theorem natCharsAux_all_digit : ∀ (fuel n : Nat) (c : Char),
    c ∈ natCharsAux fuel n → c.isDigit = true := by
  intro fuel
  induction fuel with
  | zero => intro n c hc; exact absurd hc (by simp [natCharsAux])
  | succ f ih =>
    intro n c hc
    by_cases hn : n = 0
    · rw [natCharsAux, if_pos hn] at hc
      exact absurd hc (by simp)
    · rw [natCharsAux, if_neg hn] at hc
      rcases List.mem_append.mp hc with h | h
      · exact ih (n / 10) c h
      · have : c = digitChar (n % 10) := by simpa using h
        subst this
        exact digitChar_isDigit (n % 10) (Nat.mod_lt n (by omega))

theorem foldl_digits_natCharsAux : ∀ (fuel n a : Nat), n ≤ fuel →
    (natCharsAux fuel n).foldl (fun acc c => 10 * acc + (c.toNat - 48)) a
      = a * 10 ^ (natCharsAux fuel n).length + n := by
  intro fuel
  induction fuel with
  | zero =>
    intro n a hn
    have : n = 0 := by omega
    subst this
    simp [natCharsAux]
  | succ f ih =>
    intro n a hn
    by_cases hz : n = 0
    · subst hz
      simp [natCharsAux]
    · rw [natCharsAux, if_neg hz]
      rw [List.foldl_append, List.length_append]
      have hdiv : n / 10 ≤ f := by
        have : n / 10 < n := Nat.div_lt_self (by omega) (by omega)
        omega
      rw [ih (n / 10) a hdiv]
      simp only [List.foldl_cons, List.foldl_nil, List.length_cons, List.length_nil]
      rw [digitChar_toNat_eq (n % 10) (Nat.mod_lt n (by omega))]
      have h48 : 48 + n % 10 - 48 = n % 10 := by omega
      rw [h48, pow_succ]
      have hmod := Nat.div_add_mod n 10
      ring_nf
      omega

theorem digitsVal_natChars (n : Nat) : digitsVal (natChars n) = n := by
  by_cases hz : n = 0
  · subst hz
    rfl
  · rw [natChars, if_neg hz, digitsVal, foldl_digits_natCharsAux n n 0 (le_refl n)]
    simp

theorem natChars_all_digit (n : Nat) : ∀ c ∈ natChars n, c.isDigit = true := by
  by_cases hz : n = 0
  · subst hz
    intro c hc
    have : c = '0' := by simpa [natChars] using hc
    subst this
    decide
  · rw [natChars, if_neg hz]
    exact fun c hc => natCharsAux_all_digit n n c hc

theorem natChars_ne_nil (n : Nat) : natChars n ≠ [] := by
  by_cases hz : n = 0
  · subst hz
    simp [natChars]
  · rw [natChars, if_neg hz]
    cases hf : n with
    | zero => exact absurd hf hz
    | succ m =>
      rw [natCharsAux, if_neg (by omega : ¬ (m + 1 = 0))]
      simp

theorem takeWhile_append_stops {p : Char → Bool} : ∀ (l r : List Char),
    (∀ c ∈ l, p c = true) → (∀ c, r.head? = some c → p c = false) →
    (l ++ r).takeWhile p = l ∧ (l ++ r).dropWhile p = r := by
  intro l
  induction l with
  | nil =>
    intro r _ hr
    cases r with
    | nil => exact ⟨rfl, rfl⟩
    | cons c r2 =>
      have := hr c rfl
      simp [List.takeWhile, List.dropWhile, this]
  | cons x tl ih =>
    intro r hl hr
    have hx : p x = true := hl x (by simp)
    obtain ⟨h1, h2⟩ := ih r (fun c hc => hl c (by simp [hc])) hr
    simp [List.cons_append, List.takeWhile_cons, List.dropWhile_cons, hx, h1, h2]

theorem parseNatNum_natChars (n : Nat) (rest : List Char)
    (hrest : ∀ c, rest.head? = some c → c.isDigit = false) :
    parseNatNum (natChars n ++ rest) = some (n, rest) := by
  obtain ⟨htake, hdrop⟩ :=
    takeWhile_append_stops (natChars n) rest (natChars_all_digit n) hrest
  simp only [parseNatNum, htake, hdrop]
  rw [if_neg (by simpa using natChars_ne_nil n)]
  rw [show digitsVal (natChars n) = n from digitsVal_natChars n]

theorem parseNumFrom_natChars (n : Nat) (rest : List Char)
    (hrest : ∀ c, rest.head? = some c → c.isDigit = false) :
    parseNumFrom (natChars n ++ rest) = some (.num (n : Int), rest) := by
  simp only [parseNumFrom, parseNatNum_natChars n rest hrest]

theorem parseNegNumFrom_natChars (n : Nat) (rest : List Char)
    (hrest : ∀ c, rest.head? = some c → c.isDigit = false) :
    parseNegNumFrom (natChars n ++ rest) = some (.num (-(n : Int)), rest) := by
  simp only [parseNegNumFrom, parseNatNum_natChars n rest hrest]

/-! ### String-literal round trip -/

theorem parseStrBody_escStr : ∀ (s rest : List Char),
    parseStrBody (escStr s ++ '"' :: rest) = some (s, rest) := by
  intro s
  induction s with
  | nil =>
    intro rest
    rw [show escStr [] ++ '"' :: rest = '"' :: rest by simp [escStr]]
    rw [parseStrBody.eq_def]
    simp
  | cons c cs ih =>
    intro rest
    by_cases h1 : c = '"'
    · subst h1
      simp [escStr, parseStrBody, unescChar, ih rest]
    · by_cases h2 : c = '\\'
      · subst h2
        simp [escStr, parseStrBody, unescChar, ih rest]
      · by_cases h3 : c = '\n'
        · subst h3
          simp [escStr, parseStrBody, unescChar, ih rest]
        · by_cases h4 : c = '\t'
          · subst h4
            simp [escStr, parseStrBody, unescChar, ih rest]
          · by_cases h5 : c = '\r'
            · subst h5
              simp [escStr, parseStrBody, unescChar, ih rest]
            · rw [show escStr (c :: cs) ++ '"' :: rest
                  = c :: (escStr cs ++ '"' :: rest) by
                simp [escStr, h1, h2, h3, h4, h5]]
              rw [parseStrBody.eq_def]
              simp [h1, h2, ih rest]

/-! ### Serializer shape facts -/

theorem skipWs_cons_not_ws {c : Char} (h : isWsChar c = false) (l : List Char) :
    skipWs (c :: l) = c :: l := by
  rw [skipWs.eq_def]
  simp [h]

theorem isDigit_ne_lits {ch : Char} (h : ch.isDigit = true) :
    ch ≠ '\x7b' ∧ ch ≠ '[' ∧ ch ≠ '"' ∧ ch ≠ '-' ∧ ch ≠ 't' ∧ ch ≠ 'f' ∧ ch ≠ 'n' := by
  have k : ∀ d : Char, d.isDigit = false → ch ≠ d := by
    intro d hd he
    subst he
    rw [h] at hd
    cases hd
  exact ⟨k _ (by decide), k _ (by decide), k _ (by decide), k _ (by decide),
    k _ (by decide), k _ (by decide), k _ (by decide)⟩

theorem natChars_head (n : Nat) :
    ∃ c cts, natChars n = c :: cts ∧ c.isDigit = true := by
  cases h : natChars n with
  | nil => exact absurd h (natChars_ne_nil n)
  | cons c cts =>
    exact ⟨c, cts, rfl, natChars_all_digit n c (h ▸ List.mem_cons_self c cts)⟩

theorem head_not_digit_cons {d : Char} (hd : d.isDigit = false) (X : List Char) :
    ∀ c, ((d :: X) : List Char).head? = some c → c.isDigit = false := by
  intro c hc
  simp only [List.head?_cons, Option.some_inj] at hc
  subst hc
  exact hd

theorem head_not_digit_nil :
    ∀ c, ([] : List Char).head? = some c → c.isDigit = false := by
  intro c hc
  simp at hc

theorem strChars_head_facts : ∀ v : Json, ∃ c cs, strChars v = c :: cs
    ∧ isWsChar c = false ∧ c ≠ ']' ∧ c ≠ '\x7d' ∧ c ≠ ',' := by
  intro v
  have mk : ∀ (c : Char) (cs : List Char),
      strChars v = c :: cs →
      isWsChar c = false ∧ c ≠ ']' ∧ c ≠ '\x7d' ∧ c ≠ ',' →
      ∃ c' cs', strChars v = c' :: cs'
        ∧ isWsChar c' = false ∧ c' ≠ ']' ∧ c' ≠ '\x7d' ∧ c' ≠ ',' :=
    fun c cs he hp => ⟨c, cs, he, hp.1, hp.2.1, hp.2.2.1, hp.2.2.2⟩
  cases v with
  | null => exact mk 'n' "ull".data rfl (by decide)
  | bool b =>
    refine mk (if b then 't' else 'f') ((if b then "rue" else "alse").data) ?_ ?_
    · cases b <;> rfl
    · cases b <;> decide
  | num n =>
    cases n with
    | ofNat m =>
      obtain ⟨c, cts, hshape, hdg⟩ := natChars_head m
      refine mk c cts ?_ ⟨isDigit_not_ws hdg, ?_, ?_, ?_⟩
      · rw [show strChars (Json.num (Int.ofNat m)) = natChars m from rfl, hshape]
      · intro he; subst he; exact absurd hdg (by decide)
      · intro he; subst he; exact absurd hdg (by decide)
      · intro he; subst he; exact absurd hdg (by decide)
    | negSucc m => exact mk '-' (natChars (m + 1)) rfl (by decide)
  | str s => exact mk '"' (escStr s.data ++ ['"']) rfl (by decide)
  | arr xs => exact mk '[' (strElems xs ++ [']']) rfl (by decide)
  | obj fs => exact mk '\x7b' (strFields fs ++ ['\x7d']) rfl (by decide)

theorem strElems_cons_shape (y : Json) (tl : JsonList) :
    ∃ Z, strElems (.cons y tl) = strChars y ++ Z := by
  cases tl with
  | nil => exact ⟨[], by simp [strElems]⟩
  | cons z tl2 => exact ⟨',' :: strElems (.cons z tl2), by simp [strElems]⟩

mutual
theorem parseVal_strChars (v : Json) : ∀ (fuel : Nat) (rest : List Char),
    (strChars v).length + 1 ≤ fuel →
    (∀ c, rest.head? = some c → c.isDigit = false) →
    parseVal fuel (strChars v ++ rest) = some (v, rest) := by
  intro fuel rest hfuel hrest
  match fuel with
  | 0 => exact absurd hfuel (by omega)
  | f + 1 =>
    match v with
    | .null =>
      rw [show strChars Json.null = ['n', 'u', 'l', 'l'] from rfl]
      simp only [parseVal, List.cons_append]
      simp [skipWs, isWsChar]
    | .bool true =>
      rw [show strChars (Json.bool true) = ['t', 'r', 'u', 'e'] from rfl]
      simp only [parseVal, List.cons_append]
      simp [skipWs, isWsChar]
    | .bool false =>
      rw [show strChars (Json.bool false) = ['f', 'a', 'l', 's', 'e'] from rfl]
      simp only [parseVal, List.cons_append]
      simp [skipWs, isWsChar]
    | .num (Int.ofNat m) =>
      rw [show strChars (Json.num (Int.ofNat m)) = natChars m from rfl]
      obtain ⟨c0, cts, hshape, hdg⟩ := natChars_head m
      obtain ⟨hne1, hne2, hne3, hne4, hne5, hne6, hne7⟩ := isDigit_ne_lits hdg
      rw [hshape, List.cons_append]
      simp only [parseVal]
      rw [skipWs_cons_not_ws (isDigit_not_ws hdg)]
      simp [hne1, hne2, hne3, hne4, hne5, hne6, hne7, hdg]
      rw [← List.cons_append, ← hshape]
      exact parseNumFrom_natChars m rest hrest
    | .num (Int.negSucc m) =>
      rw [show strChars (Json.num (Int.negSucc m)) = '-' :: natChars (m + 1) from rfl,
        List.cons_append]
      simp only [parseVal]
      rw [skipWs_cons_not_ws (show isWsChar '-' = false by decide)]
      simp
      rw [parseNegNumFrom_natChars (m + 1) rest hrest]
      simp [Int.negSucc_eq]
    | .str s =>
      rw [show strChars (Json.str s) = ('"' :: escStr s.data) ++ ['"'] from rfl]
      simp only [List.cons_append, List.append_assoc, List.singleton_append,
        List.nil_append]
      simp only [parseVal]
      rw [skipWs_cons_not_ws (show isWsChar '"' = false by decide)]
      simp
      rw [parseStrBody_escStr s.data rest]
    | .arr .nil =>
      rw [show strChars (Json.arr .nil) = ['[', ']'] from rfl]
      simp only [parseVal, List.cons_append]
      simp [skipWs, isWsChar]
    | .arr (.cons y tl) =>
      have hsh : strChars (Json.arr (.cons y tl))
          = ('[' :: strElems (.cons y tl)) ++ [']'] := by simp [strChars]
      have hlen : (strElems (JsonList.cons y tl)).length + 2 ≤ f := by
        rw [hsh] at hfuel
        simp only [List.length_cons, List.length_append] at hfuel
        omega
      rw [hsh]
      simp only [List.cons_append, List.append_assoc, List.singleton_append,
        List.nil_append]
      simp only [parseVal]
      rw [skipWs_cons_not_ws (show isWsChar '[' = false by decide)]
      simp
      obtain ⟨Z, hZ⟩ := strElems_cons_shape y tl
      obtain ⟨c0, cs0, hh, hws, hrb, hcb, hcomma⟩ := strChars_head_facts y
      rw [hZ, List.append_assoc, hh, List.cons_append]
      rw [skipWs_cons_not_ws hws]
      simp [hrb]
      rw [← List.cons_append, ← hh, ← List.append_assoc, ← hZ]
      rw [parseElems_strElems (JsonList.cons y tl) f rest (by simp) hlen]
    | .obj .nil =>
      rw [show strChars (Json.obj .nil) = ['\x7b', '\x7d'] from rfl]
      simp only [parseVal, List.cons_append]
      simp [skipWs, isWsChar]
    | .obj (.cons k v tl) =>
      have hsh : strChars (Json.obj (.cons k v tl))
          = ('\x7b' :: strFields (.cons k v tl)) ++ ['\x7d'] := by simp [strChars]
      have hlen : (strFields (JsonFields.cons k v tl)).length + 2 ≤ f := by
        rw [hsh] at hfuel
        simp only [List.length_cons, List.length_append] at hfuel
        omega
      have hql : ∃ Z, strFields (JsonFields.cons k v tl) = '"' :: Z := by
        cases tl with
        | nil =>
          exact ⟨escStr k.data ++ '"' :: ':' :: strChars v, by simp [strFields]⟩
        | cons k2 v2 tl2 =>
          exact ⟨(escStr k.data ++ '"' :: ':' :: strChars v)
            ++ ',' :: strFields (JsonFields.cons k2 v2 tl2), by simp [strFields]⟩
      obtain ⟨Z, hZ⟩ := hql
      rw [hsh]
      simp only [List.cons_append, List.append_assoc, List.singleton_append,
        List.nil_append]
      simp only [parseVal]
      rw [skipWs_cons_not_ws (show isWsChar '\x7b' = false by decide)]
      simp
      rw [hZ, List.cons_append]
      rw [skipWs_cons_not_ws (show isWsChar '"' = false by decide)]
      simp
      rw [← List.cons_append, ← hZ]
      rw [parseFields_strFields (JsonFields.cons k v tl) f rest (by simp) hlen]
  termination_by structural v => v

theorem parseElems_strElems (l : JsonList) : ∀ (fuel : Nat) (rest : List Char),
    l ≠ .nil → (strElems l).length + 2 ≤ fuel →
    parseElems fuel (strElems l ++ ']' :: rest) = some (l, rest) := by
  intro fuel rest hne hfuel
  match fuel with
  | 0 => exact absurd hfuel (by omega)
  | f + 1 =>
    match l with
    | .nil => exact absurd rfl hne
    | .cons y .nil =>
      have hb1 : (strChars y).length + 1 ≤ f := by
        rw [show strElems (JsonList.cons y .nil) = strChars y by
          simp [strElems]] at hfuel
        omega
      rw [show strElems (JsonList.cons y .nil) = strChars y by simp [strElems]]
      simp only [parseElems]
      rw [parseVal_strChars y f (']' :: rest) hb1
        (head_not_digit_cons (by decide) rest)]
      simp [skipWs, isWsChar]
    | .cons y (.cons z tl2) =>
      have hsf : strElems (JsonList.cons y (.cons z tl2))
          = strChars y ++ ',' :: strElems (.cons z tl2) := by simp [strElems]
      have hb1 : (strChars y).length + 1 ≤ f := by
        rw [hsf] at hfuel
        simp only [List.length_append, List.length_cons] at hfuel
        omega
      have hb2 : (strElems (JsonList.cons z tl2)).length + 2 ≤ f := by
        rw [hsf] at hfuel
        simp only [List.length_append, List.length_cons] at hfuel
        omega
      rw [hsf]
      simp only [List.cons_append, List.append_assoc]
      simp only [parseElems]
      rw [parseVal_strChars y f (',' :: (strElems (.cons z tl2) ++ ']' :: rest))
        hb1 (head_not_digit_cons (by decide) _)]
      simp [skipWs, isWsChar]
      rw [parseElems_strElems (JsonList.cons z tl2) f rest (by simp) hb2]
  termination_by structural l => l

theorem parseFields_strFields (l : JsonFields) : ∀ (fuel : Nat) (rest : List Char),
    l ≠ .nil → (strFields l).length + 2 ≤ fuel →
    parseFields fuel (strFields l ++ '\x7d' :: rest) = some (l, rest) := by
  intro fuel rest hne hfuel
  match fuel with
  | 0 => exact absurd hfuel (by omega)
  | f + 1 =>
    match l with
    | .nil => exact absurd rfl hne
    | .cons k v .nil =>
      have hsf : strFields (JsonFields.cons k v .nil)
          = ('"' :: escStr k.data) ++ '"' :: ':' :: strChars v := by simp [strFields]
      have hb1 : (strChars v).length + 1 ≤ f := by
        rw [hsf] at hfuel
        simp only [List.length_append, List.length_cons] at hfuel
        omega
      rw [hsf]
      simp only [List.cons_append, List.append_assoc]
      simp only [parseFields]
      rw [skipWs_cons_not_ws (show isWsChar '"' = false by decide)]
      simp
      rw [parseStrBody_escStr k.data (':' :: (strChars v ++ '\x7d' :: rest))]
      simp [skipWs, isWsChar]
      rw [parseVal_strChars v f ('\x7d' :: rest) hb1
        (head_not_digit_cons (by decide) rest)]
      simp [skipWs, isWsChar]
    | .cons k v (.cons k2 v2 tl2) =>
      have hsf : strFields (JsonFields.cons k v (.cons k2 v2 tl2))
          = (('"' :: escStr k.data) ++ '"' :: ':' :: strChars v)
            ++ ',' :: strFields (.cons k2 v2 tl2) := by simp [strFields]
      have hb1 : (strChars v).length + 1 ≤ f := by
        rw [hsf] at hfuel
        simp only [List.length_append, List.length_cons] at hfuel
        omega
      have hb2 : (strFields (JsonFields.cons k2 v2 tl2)).length + 2 ≤ f := by
        rw [hsf] at hfuel
        simp only [List.length_append, List.length_cons] at hfuel
        omega
      rw [hsf]
      simp only [List.cons_append, List.append_assoc]
      simp only [parseFields]
      rw [skipWs_cons_not_ws (show isWsChar '"' = false by decide)]
      simp
      rw [parseStrBody_escStr k.data
        (':' :: (strChars v ++ (',' :: (strFields (.cons k2 v2 tl2) ++ '\x7d' :: rest))))]
      simp [skipWs, isWsChar]
      rw [parseVal_strChars v f
        (',' :: (strFields (.cons k2 v2 tl2) ++ '\x7d' :: rest)) hb1
        (head_not_digit_cons (by decide) _)]
      simp [skipWs, isWsChar]
      rw [parseFields_strFields (JsonFields.cons k2 v2 tl2) f rest (by simp) hb2]
  termination_by structural l => l
end

/-! ### Infrastructure for `parsePossiblyMany` on newline-joined inputs -/

theorem dropWhile_head_not (p : Char → Bool) (l : List Char)
    (h : ∀ c, l.head? = some c → p c = false) : l.dropWhile p = l := by
  cases l with
  | nil => rfl
  | cons c cs => simp [List.dropWhile_cons, h c rfl]

theorem trimChars_eq_self (l : List Char)
    (hh : ∀ c, l.head? = some c → isWsChar c = false)
    (hl : ∀ c, l.getLast? = some c → isWsChar c = false) :
    trimChars l = l := by
  unfold trimChars
  rw [dropWhile_head_not _ _ hh]
  rw [dropWhile_head_not _ _ (by
    intro c hc
    exact hl c (by rwa [List.head?_reverse] at hc))]
  exact List.reverse_reverse l

theorem jsonParseChars_strChars (v : Json) : jsonParseChars (strChars v) = some v := by
  unfold jsonParseChars
  have h := parseVal_strChars v ((strChars v).length + 1) []
    (by omega) (by intro c hc; simp at hc)
  rw [List.append_nil] at h
  rw [h]
  simp [skipWs]

theorem jsonParseChars_append_nl_none (v : Json) (c : Char) (cs : List Char)
    (hws : isWsChar c = false) :
    jsonParseChars (strChars v ++ '\n' :: c :: cs) = none := by
  unfold jsonParseChars
  have h := parseVal_strChars v ((strChars v ++ '\n' :: c :: cs).length + 1)
    ('\n' :: c :: cs)
    (by simp only [List.length_append, List.length_cons]; omega)
    (head_not_digit_cons (by decide) _)
  rw [h]
  have hs : skipWs ('\n' :: c :: cs) = c :: cs := by
    rw [show skipWs ('\n' :: c :: cs) = skipWs (c :: cs) by simp [skipWs, isWsChar]]
    exact skipWs_cons_not_ws hws _
  simp [hs]

theorem splitOnNl_no_nl : ∀ (l : List Char), '\n' ∉ l → splitOnNl l = [l] := by
  intro l
  induction l with
  | nil => intro _; rfl
  | cons c cs ih =>
    intro h
    have hc : c ≠ '\n' := fun he => h (he ▸ List.mem_cons_self c cs)
    have hcs : '\n' ∉ cs := fun hm => h (List.mem_cons_of_mem c hm)
    rw [splitOnNl, if_neg hc, ih hcs]

theorem splitOnNl_append_nl : ∀ (l t : List Char), '\n' ∉ l →
    splitOnNl (l ++ '\n' :: t) = l :: splitOnNl t := by
  intro l
  induction l with
  | nil =>
    intro t _
    simp [splitOnNl]
  | cons c cs ih =>
    intro t h
    have hc : c ≠ '\n' := fun he => h (he ▸ List.mem_cons_self c cs)
    have hcs : '\n' ∉ cs := fun hm => h (List.mem_cons_of_mem c hm)
    rw [List.cons_append, splitOnNl, if_neg hc, ih t hcs]

theorem splitOnNl_joinNl : ∀ (ls : List (List Char)), ls ≠ [] →
    (∀ l ∈ ls, '\n' ∉ l) → splitOnNl (joinNl ls) = ls := by
  intro ls
  induction ls with
  | nil => intro h; exact absurd rfl h
  | cons l ls' ih =>
    intro _ h
    cases ls' with
    | nil =>
      rw [show joinNl [l] = l from rfl]
      rw [splitOnNl_no_nl l (h l (List.mem_cons_self l _))]
    | cons l2 ls2 =>
      rw [show joinNl (l :: l2 :: ls2) = l ++ '\n' :: joinNl (l2 :: ls2) from rfl]
      rw [splitOnNl_append_nl l _ (h l (List.mem_cons_self l _))]
      rw [ih (by simp) (fun x hx => h x (List.mem_cons_of_mem l hx))]

theorem escStr_no_nl : ∀ (cs : List Char), '\n' ∉ escStr cs := by
  intro cs
  induction cs with
  | nil => simp [escStr]
  | cons c cs ih =>
    simp only [escStr]
    split_ifs with h1 h2 h3 h4 h5 <;> simp [ih] <;>
      exact fun he => h3 he.symm

mutual
theorem strChars_no_nl : ∀ (v : Json), '\n' ∉ strChars v
  | .null => by decide
  | .bool true => by decide
  | .bool false => by decide
  | .num (Int.ofNat m) => by
    intro hm
    exact absurd
      (natChars_all_digit m '\n'
        (by simpa [show strChars (Json.num (Int.ofNat m)) = natChars m from rfl]
          using hm))
      (by decide)
  | .num (Int.negSucc m) => by
    intro hm
    rw [show strChars (Json.num (Int.negSucc m)) = '-' :: natChars (m + 1) from rfl]
      at hm
    rcases List.mem_cons.mp hm with he | hm2
    · exact absurd he (by decide)
    · exact absurd (natChars_all_digit (m + 1) '\n' hm2) (by decide)
  | .str s => by
    intro hm
    rw [show strChars (Json.str s) = '"' :: (escStr s.data ++ ['"']) from rfl] at hm
    rcases List.mem_cons.mp hm with he | hm2
    · exact absurd he (by decide)
    · rcases List.mem_append.mp hm2 with h3 | h3
      · exact escStr_no_nl s.data h3
      · rw [List.mem_singleton] at h3
        exact absurd h3 (by decide)
  | .arr xs => by
    intro hm
    rw [show strChars (Json.arr xs) = '[' :: (strElems xs ++ [']']) from rfl] at hm
    rcases List.mem_cons.mp hm with he | hm2
    · exact absurd he (by decide)
    · rcases List.mem_append.mp hm2 with h3 | h3
      · exact strElems_no_nl xs h3
      · rw [List.mem_singleton] at h3
        exact absurd h3 (by decide)
  | .obj fs => by
    intro hm
    rw [show strChars (Json.obj fs) = '\x7b' :: (strFields fs ++ ['\x7d']) from rfl]
      at hm
    rcases List.mem_cons.mp hm with he | hm2
    · exact absurd he (by decide)
    · rcases List.mem_append.mp hm2 with h3 | h3
      · exact strFields_no_nl fs h3
      · rw [List.mem_singleton] at h3
        exact absurd h3 (by decide)
  termination_by structural v => v

theorem strElems_no_nl : ∀ (l : JsonList), '\n' ∉ strElems l
  | .nil => by simp [strElems]
  | .cons y .nil => by
    rw [show strElems (JsonList.cons y .nil) = strChars y from by simp [strElems]]
    exact strChars_no_nl y
  | .cons y (.cons z tl) => by
    intro hm
    rw [show strElems (JsonList.cons y (.cons z tl))
        = strChars y ++ ',' :: strElems (JsonList.cons z tl) from by simp [strElems]]
      at hm
    rcases List.mem_append.mp hm with h3 | h3
    · exact strChars_no_nl y h3
    · rcases List.mem_cons.mp h3 with he | h4
      · exact absurd he (by decide)
      · exact strElems_no_nl (JsonList.cons z tl) h4
  termination_by structural l => l

theorem strFields_no_nl : ∀ (l : JsonFields), '\n' ∉ strFields l
  | .nil => by simp [strFields]
  | .cons k v .nil => by
    intro hm
    rw [show strFields (JsonFields.cons k v .nil)
        = '"' :: (escStr k.data ++ '"' :: ':' :: strChars v) from by simp [strFields]]
      at hm
    rcases List.mem_cons.mp hm with he | hm2
    · exact absurd he (by decide)
    · rcases List.mem_append.mp hm2 with h3 | h3
      · exact escStr_no_nl k.data h3
      · rcases List.mem_cons.mp h3 with he | h4
        · exact absurd he (by decide)
        · rcases List.mem_cons.mp h4 with he | h5
          · exact absurd he (by decide)
          · exact strChars_no_nl v h5
  | .cons k v (.cons k2 v2 tl) => by
    intro hm
    rw [show strFields (JsonFields.cons k v (.cons k2 v2 tl))
        = ('"' :: escStr k.data ++ '"' :: ':' :: strChars v)
          ++ ',' :: strFields (JsonFields.cons k2 v2 tl) from by simp [strFields]]
      at hm
    rcases List.mem_append.mp hm with h3 | h3
    · rcases List.mem_cons.mp h3 with he | h4
      · exact absurd he (by decide)
      · rcases List.mem_append.mp h4 with h5 | h5
        · exact escStr_no_nl k.data h5
        · rcases List.mem_cons.mp h5 with he | h6
          · exact absurd he (by decide)
          · rcases List.mem_cons.mp h6 with he | h7
            · exact absurd he (by decide)
            · exact strChars_no_nl v h7
    · rcases List.mem_cons.mp h3 with he | h4
      · exact absurd he (by decide)
      · exact strFields_no_nl (JsonFields.cons k2 v2 tl) h4
  termination_by structural l => l
end

/-- The last character of a serialized value is never whitespace. -/
theorem strChars_getLast_not_ws (v : Json) :
    ∀ c, (strChars v).getLast? = some c → isWsChar c = false := by
  cases v with
  | null => intro c hc; rw [show (strChars Json.null).getLast? = some 'l' from rfl] at hc; cases hc; decide
  | bool b =>
    cases b with
    | true => intro c hc; rw [show (strChars (Json.bool true)).getLast? = some 'e' from rfl] at hc; cases hc; decide
    | false => intro c hc; rw [show (strChars (Json.bool false)).getLast? = some 'e' from rfl] at hc; cases hc; decide
  | num n =>
    cases n with
    | ofNat m =>
      intro c hc
      rw [show strChars (Json.num (Int.ofNat m)) = natChars m from rfl] at hc
      exact isDigit_not_ws (natChars_all_digit m c (List.mem_of_mem_getLast? hc))
    | negSucc m =>
      intro c hc
      rw [show strChars (Json.num (Int.negSucc m)) = '-' :: natChars (m + 1) from rfl]
        at hc
      obtain ⟨c0, cts, hsh, _⟩ := natChars_head (m + 1)
      rw [hsh, List.getLast?_cons_cons] at hc
      exact isDigit_not_ws
        (natChars_all_digit (m + 1) c (hsh ▸ List.mem_of_mem_getLast? hc))
  | str s =>
    intro c hc
    rw [show strChars (Json.str s) = ('"' :: escStr s.data) ++ ['"'] from rfl,
      List.getLast?_concat] at hc
    cases hc
    decide
  | arr xs =>
    intro c hc
    rw [show strChars (Json.arr xs) = ('[' :: strElems xs) ++ [']'] from rfl,
      List.getLast?_concat] at hc
    cases hc
    decide
  | obj fs =>
    intro c hc
    rw [show strChars (Json.obj fs) = ('\x7b' :: strFields fs) ++ ['\x7d'] from rfl,
      List.getLast?_concat] at hc
    cases hc
    decide

/-- Serializations are nonempty. -/
theorem strChars_ne_nil (v : Json) : strChars v ≠ [] := by
  obtain ⟨c, cs, hsh, _⟩ := strChars_head_facts v
  rw [hsh]
  simp

theorem joinNl_head_cons (l : List Char) (ls : List (List Char)) (hne : l ≠ []) :
    (joinNl (l :: ls)).head? = l.head? := by
  cases ls with
  | nil => rfl
  | cons l2 ls2 =>
    rw [show joinNl (l :: l2 :: ls2) = l ++ '\n' :: joinNl (l2 :: ls2) from rfl]
    cases l with
    | nil => exact absurd rfl hne
    | cons c cs => rfl

theorem joinNl_getLast_concat : ∀ (ls : List (List Char)) (l : List Char), l ≠ [] →
    (joinNl (ls ++ [l])).getLast? = l.getLast? := by
  intro ls
  induction ls with
  | nil => intro l _; rfl
  | cons l0 ls' ih =>
    intro l hne
    rw [show (l0 :: ls') ++ [l] = l0 :: (ls' ++ [l]) from rfl]
    cases h : ls' ++ [l] with
    | nil => simp at h
    | cons x xs =>
      rw [show joinNl (l0 :: x :: xs) = l0 ++ '\n' :: joinNl (x :: xs) from rfl]
      rw [List.getLast?_append_of_ne_nil _ (by simp)]
      have hlast : (joinNl (ls' ++ [l])).getLast? = l.getLast? := ih l hne
      have hJ : joinNl (x :: xs) ≠ [] := by
        rw [← h]
        intro hz
        rw [hz] at hlast
        have : l.getLast?.isSome := List.getLast?_isSome.mpr hne
        rw [← hlast] at this
        simp at this
      rw [show ('\n' :: joinNl (x :: xs)) = ['\n'] ++ joinNl (x :: xs) from rfl]
      rw [List.getLast?_append_of_ne_nil _ hJ, ← h]
      exact hlast

theorem map_trim_fixed : ∀ (lss : List (List Char)), (∀ l ∈ lss, trimChars l = l) →
    lss.map trimChars = lss := by
  intro lss
  induction lss with
  | nil => exact fun _ => rfl
  | cons l lss' ih =>
    intro h
    rw [List.map_cons, h l (List.mem_cons_self l _),
      ih (fun x hx => h x (List.mem_cons_of_mem l hx))]

theorem filter_nonempty : ∀ (lss : List (List Char)), (∀ l ∈ lss, l ≠ []) →
    lss.filter (fun l => ¬l.isEmpty) = lss := by
  intro lss
  induction lss with
  | nil => exact fun _ => rfl
  | cons l lss' ih =>
    intro h
    rw [List.filter_cons,
      if_pos (by simp [List.isEmpty_iff, h l (List.mem_cons_self l _)]),
      ih (fun x hx => h x (List.mem_cons_of_mem l hx))]

theorem flushResult_line (l : List Char) (ht : trimChars l = l) (hne : l ≠ []) :
    flushResult l = (jsonParseChars l).toList := by
  simp only [flushResult, ht]
  rw [if_neg (by simp [List.isEmpty_iff, hne])]
  cases jsonParseChars l <;> simp

theorem pmLoop_balanced : ∀ (lines : List (List Char)) (out : List Json),
    (∀ l ∈ lines,
      trimChars l = l ∧ l ≠ [] ∧ 0 < countOpen l ∧ countOpen l = countClose l) →
    pmLoop lines [] out = out ++ lines.flatMap (fun l => (jsonParseChars l).toList) := by
  intro lines
  induction lines with
  | nil =>
    intro out _
    simp [pmLoop, flushResult, trimChars]
  | cons l ls ih =>
    intro out h
    obtain ⟨ht, hne, hpos, hbal⟩ := h l (List.mem_cons_self l _)
    rw [show pmLoop (l :: ls) [] out
        = if 0 < countOpen l ∧ countOpen l = countClose l then
            pmLoop ls [] (out ++ flushResult l)
          else pmLoop ls l out from rfl]
    rw [if_pos ⟨hpos, hbal⟩]
    rw [ih (out ++ flushResult l) (fun x hx => h x (List.mem_cons_of_mem l hx))]
    rw [flushResult_line l ht hne]
    simp

theorem flatMap_parse_roundtrip : ∀ (vs : List Json),
    (vs.map strChars).flatMap (fun l => (jsonParseChars l).toList) = vs := by
  intro vs
  induction vs with
  | nil => rfl
  | cons v vs' ih =>
    rw [List.map_cons, List.flatMap_cons, jsonParseChars_strChars v, ih]
    rfl

theorem strChars_head_not_ws (v : Json) :
    ∀ c, (strChars v).head? = some c → isWsChar c = false := by
  obtain ⟨c0, cs0, hsh, hws, _, _, _⟩ := strChars_head_facts v
  intro c hc
  rw [hsh, List.head?_cons, Option.some_inj] at hc
  subst hc
  exact hws

theorem trimChars_strChars (v : Json) : trimChars (strChars v) = strChars v :=
  trimChars_eq_self _ (strChars_head_not_ws v) (strChars_getLast_not_ws v)

theorem pm_single (v : Json) :
    parsePossiblyMany ⟨strChars v⟩
      = match v with | .arr xs => xs.toList | _ => [v] := by
  simp only [parsePossiblyMany]
  rw [trimChars_strChars v]
  rw [if_neg (by simp [List.isEmpty_iff, strChars_ne_nil v])]
  rw [jsonParseChars_strChars v]
  cases v <;> rfl

theorem countOpen_obj_pos (fs : JsonFields) : 0 < countOpen (strChars (Json.obj fs)) := by
  rw [show strChars (Json.obj fs) = '\x7b' :: (strFields fs ++ ['\x7d']) from rfl]
  simp [countOpen, List.countP_cons]

theorem pm_joined (v1 : Json) (ls : List (List Char)) (hne : ls ≠ [])
    (h : ∀ l ∈ ls, l ≠ [] ∧ ('\n' ∉ l)
      ∧ (∀ c, l.head? = some c → isWsChar c = false)
      ∧ (∀ c, l.getLast? = some c → isWsChar c = false)
      ∧ 0 < countOpen l ∧ countOpen l = countClose l)
    (hv : 0 < countOpen (strChars v1)
      ∧ countOpen (strChars v1) = countClose (strChars v1)) :
    parsePossiblyMany ⟨joinNl (strChars v1 :: ls)⟩
      = (strChars v1 :: ls).flatMap (fun l => (jsonParseChars l).toList) := by
  have hall : ∀ l ∈ (strChars v1 :: ls), l ≠ [] ∧ ('\n' ∉ l)
      ∧ (∀ c, l.head? = some c → isWsChar c = false)
      ∧ (∀ c, l.getLast? = some c → isWsChar c = false)
      ∧ 0 < countOpen l ∧ countOpen l = countClose l := by
    intro l hl
    rcases List.mem_cons.mp hl with he | hm
    · subst he
      exact ⟨strChars_ne_nil v1, strChars_no_nl v1, strChars_head_not_ws v1,
        strChars_getLast_not_ws v1, hv.1, hv.2⟩
    · exact h l hm
  obtain ⟨c1, cs1, hsh1, hws1, _, _, _⟩ := strChars_head_facts v1
  have hheadw : (joinNl (strChars v1 :: ls)).head? = some c1 := by
    rw [joinNl_head_cons _ _ (strChars_ne_nil v1), hsh1, List.head?_cons]
  have hlastw : ∀ c, (joinNl (strChars v1 :: ls)).getLast? = some c →
      isWsChar c = false := by
    intro c hc
    have hmem : ls.getLast hne ∈ ls := List.getLast_mem hne
    obtain ⟨hlne, _, _, hlastf, _, _⟩ := h _ hmem
    have hsplit : strChars v1 :: ls
        = (strChars v1 :: ls.dropLast) ++ [ls.getLast hne] := by
      rw [List.cons_append]
      congr 1
      exact (List.dropLast_append_getLast hne).symm
    rw [hsplit, joinNl_getLast_concat _ _ hlne] at hc
    exact hlastf c hc
  have htrim : trimChars (joinNl (strChars v1 :: ls)) = joinNl (strChars v1 :: ls) :=
    trimChars_eq_self _
      (by
        intro c hc
        rw [hheadw, Option.some_inj] at hc
        subst hc
        exact hws1)
      hlastw
  obtain ⟨l2, ls2, rfl⟩ : ∃ l2 ls2, ls = l2 :: ls2 := by
    cases ls with
    | nil => exact absurd rfl hne
    | cons a b => exact ⟨a, b, rfl⟩
  obtain ⟨hl2ne, _, hl2head, _, _, _⟩ := h l2 (List.mem_cons_self l2 ls2)
  have hnone : jsonParseChars (joinNl (strChars v1 :: l2 :: ls2)) = none := by
    rw [show joinNl (strChars v1 :: l2 :: ls2)
        = strChars v1 ++ '\n' :: joinNl (l2 :: ls2) from rfl]
    cases hJ : joinNl (l2 :: ls2) with
    | nil =>
      have hcontra := joinNl_head_cons l2 ls2 hl2ne
      rw [hJ] at hcontra
      cases l2 with
      | nil => exact absurd rfl hl2ne
      | cons a b => simp at hcontra
    | cons c2 rest =>
      have hh2 : (joinNl (l2 :: ls2)).head? = l2.head? := joinNl_head_cons l2 ls2 hl2ne
      rw [hJ, List.head?_cons] at hh2
      exact jsonParseChars_append_nl_none v1 c2 rest (hl2head c2 hh2.symm)
  simp only [parsePossiblyMany]
  rw [htrim]
  rw [if_neg (by
    simp only [List.isEmpty_iff]
    intro hz
    rw [hz] at hheadw
    cases hheadw)]
  rw [hnone]
  rw [show (match (none : Option Json) with
      | some (Json.arr xs) => xs.toList
      | some v => [v]
      | none => pmNdjson (joinNl (strChars v1 :: l2 :: ls2)))
      = pmNdjson (joinNl (strChars v1 :: l2 :: ls2)) from rfl]
  simp only [pmNdjson]
  rw [splitOnNl_joinNl _ (by simp) (fun l hl => (hall l hl).2.1)]
  rw [map_trim_fixed _ (fun l hl =>
    trimChars_eq_self l (hall l hl).2.2.1 (hall l hl).2.2.2.1)]
  rw [filter_nonempty _ (fun l hl => (hall l hl).1)]
  rw [pmLoop_balanced _ [] (fun l hl =>
    ⟨trimChars_eq_self l (hall l hl).2.2.1 (hall l hl).2.2.2.1,
     (hall l hl).1, (hall l hl).2.2.2.2.1, (hall l hl).2.2.2.2.2⟩)]
  simp

/-! ### C1: newline-joined batches of objects -/

/-- Counterexample to C1 as stated: the two well-formed objects
`\x7b"a":"\x7d"\x7d` and `\x7b"b":1\x7d`, serialized one per line, parse to `[]`
rather than to the two objects — the closing-brace character inside the
first object's string literal makes the purely textual bracket count of
`parsePossiblyMany` see the first line as unbalanced, so the buffer
never flushes until the end and the accumulated two-line chunk is not
valid JSON. -/
theorem C1_counterexample :
    parsePossiblyMany
        (ndjsonOf [jObj [("a", Json.str "\x7d")], jObj [("b", Json.num 1)]]) = []
    ∧ parsePossiblyMany
        (ndjsonOf [jObj [("a", Json.str "\x7d")], jObj [("b", Json.num 1)]])
      ≠ [jObj [("a", Json.str "\x7d")], jObj [("b", Json.num 1)]] := by
  constructor
  · rfl
  · intro hcontra
    rw [show parsePossiblyMany
        (ndjsonOf [jObj [("a", Json.str "\x7d")], jObj [("b", Json.num 1)]])
        = [] from rfl] at hcontra
    exact List.noConfusion hcontra

/-- C1 (amended): for a nonempty sequence of well-formed JSON objects
serialized one per line and joined with newlines, `parsePossiblyMany`
returns exactly the input objects, element-wise equal and in input
order, provided each serialized object is bracket-balanced in the
purely textual sense used by the source's buffer heuristic (its count
of `\x7b`/`[` characters equals its count of `\x7d`/`]` characters —
true in particular whenever no brace or bracket character occurs inside
a string literal). -/
theorem C1_ndjson_batches (fss : List JsonFields) (hne : fss ≠ [])
    (hbal : ∀ fs ∈ fss,
      countOpen (strChars (Json.obj fs)) = countClose (strChars (Json.obj fs))) :
    parsePossiblyMany (ndjsonOf (fss.map Json.obj)) = fss.map Json.obj := by
  cases fss with
  | nil => exact absurd rfl hne
  | cons fs1 rest =>
    cases rest with
    | nil =>
      rw [show ndjsonOf ([fs1].map Json.obj) = ⟨strChars (Json.obj fs1)⟩ from rfl]
      rw [pm_single (Json.obj fs1)]
      rfl
    | cons fs2 rest2 =>
      have hls : ∀ l ∈ ((fs2 :: rest2).map Json.obj).map strChars,
          l ≠ [] ∧ ('\n' ∉ l)
          ∧ (∀ c, l.head? = some c → isWsChar c = false)
          ∧ (∀ c, l.getLast? = some c → isWsChar c = false)
          ∧ 0 < countOpen l ∧ countOpen l = countClose l := by
        intro l hl
        obtain ⟨v, hvm, rfl⟩ := List.mem_map.mp hl
        obtain ⟨fs, hfs, rfl⟩ := List.mem_map.mp hvm
        exact ⟨strChars_ne_nil _, strChars_no_nl _, strChars_head_not_ws _,
          strChars_getLast_not_ws _, countOpen_obj_pos fs,
          hbal fs (List.mem_cons_of_mem fs1 hfs)⟩
      have hmain := pm_joined (Json.obj fs1)
        (((fs2 :: rest2).map Json.obj).map strChars) (by simp) hls
        ⟨countOpen_obj_pos fs1, hbal fs1 (List.mem_cons_self fs1 _)⟩
      rw [show ndjsonOf ((fs1 :: fs2 :: rest2).map Json.obj)
          = ⟨joinNl (strChars (Json.obj fs1)
              :: ((fs2 :: rest2).map Json.obj).map strChars)⟩ from rfl]
      rw [hmain]
      rw [show (strChars (Json.obj fs1) :: ((fs2 :: rest2).map Json.obj).map strChars)
          = ((fs1 :: fs2 :: rest2).map Json.obj).map strChars from rfl]
      exact flatMap_parse_roundtrip _

/-- Instance of the amended C1 at two concrete objects. -/
theorem C1_ndjson_batches_witness :
    parsePossiblyMany
        (ndjsonOf [jObj [("a", Json.num 1)], jObj [("b", Json.bool true)]])
      = [jObj [("a", Json.num 1)], jObj [("b", Json.bool true)]] :=
  C1_ndjson_batches
    [JsonFields.cons "a" (Json.num 1) .nil, JsonFields.cons "b" (Json.bool true) .nil]
    (by simp) (by decide)

/-! ### C2: skipping a malformed line -/

/-- Counterexample to C2 as stated: with valid object lines
`\x7b"a":1\x7d` and `\x7b"b":2\x7d` around the malformed line `\x7bnot`,
`parsePossiblyMany` returns only the first object instead of both valid
ones — the malformed line's unmatched opening brace keeps the textual
bracket count positive, so it and the following valid line are
accumulated into one buffer whose parse fails, and the second object is
lost. -/
theorem C2_counterexample :
    "\x7b\"a\":1\x7d\n\x7bnot\n\x7b\"b\":2\x7d"
      = (⟨joinNl [strChars (jObj [("a", Json.num 1)]), ['\x7b', 'n', 'o', 't'],
          strChars (jObj [("b", Json.num 2)])]⟩ : String)
    ∧ parsePossiblyMany "\x7b\"a\":1\x7d\n\x7bnot\n\x7b\"b\":2\x7d"
        = [jObj [("a", Json.num 1)]]
    ∧ parsePossiblyMany "\x7b\"a\":1\x7d\n\x7bnot\n\x7b\"b\":2\x7d"
        ≠ [jObj [("a", Json.num 1)], jObj [("b", Json.num 2)]] := by
  refine ⟨rfl, rfl, ?_⟩
  intro hcontra
  rw [show parsePossiblyMany "\x7b\"a\":1\x7d\n\x7bnot\n\x7b\"b\":2\x7d"
      = [jObj [("a", Json.num 1)]] from rfl] at hcontra
  have hlen := congrArg List.length hcontra
  simp at hlen

/-- C2 (amended): for a newline-joined sequence of well-formed,
textually bracket-balanced object lines with one malformed line
interleaved after at least one valid line, `parsePossiblyMany` returns
exactly the valid objects, in order, skipping the malformed line —
provided the malformed line is itself trimmed, non-empty,
newline-free, and textually bracket-balanced with at least one opening
bracket (as `\x7bnot json\x7d` is), so that the buffer heuristic flushes
it on its own.  No error propagates: the failed chunk parse only
discards that chunk. -/
theorem C2_malformed_line_skipped (pre post : List JsonFields) (m : List Char)
    (hpre : pre ≠ [])
    (hbal : ∀ fs ∈ pre ++ post,
      countOpen (strChars (Json.obj fs)) = countClose (strChars (Json.obj fs)))
    (hm1 : m ≠ []) (hm2 : '\n' ∉ m)
    (hm3 : ∀ c, m.head? = some c → isWsChar c = false)
    (hm4 : ∀ c, m.getLast? = some c → isWsChar c = false)
    (hm5 : 0 < countOpen m) (hm6 : countOpen m = countClose m)
    (hm7 : jsonParseChars m = none) :
    parsePossiblyMany ⟨joinNl (pre.map (fun fs => strChars (Json.obj fs))
        ++ m :: post.map (fun fs => strChars (Json.obj fs)))⟩
      = (pre ++ post).map Json.obj := by
  cases pre with
  | nil => exact absurd rfl hpre
  | cons fs1 pre' =>
    have hls : ∀ l ∈ (pre'.map (fun fs => strChars (Json.obj fs))
        ++ m :: post.map (fun fs => strChars (Json.obj fs))),
        l ≠ [] ∧ ('\n' ∉ l)
        ∧ (∀ c, l.head? = some c → isWsChar c = false)
        ∧ (∀ c, l.getLast? = some c → isWsChar c = false)
        ∧ 0 < countOpen l ∧ countOpen l = countClose l := by
      intro l hl
      rcases List.mem_append.mp hl with hA | hB
      · obtain ⟨fs, hfs, rfl⟩ := List.mem_map.mp hA
        exact ⟨strChars_ne_nil _, strChars_no_nl _, strChars_head_not_ws _,
          strChars_getLast_not_ws _, countOpen_obj_pos fs,
          hbal fs (List.mem_append_left _ (List.mem_cons_of_mem fs1 hfs))⟩
      · rcases List.mem_cons.mp hB with he | hC
        · subst he
          exact ⟨hm1, hm2, hm3, hm4, hm5, hm6⟩
        · obtain ⟨fs, hfs, rfl⟩ := List.mem_map.mp hC
          exact ⟨strChars_ne_nil _, strChars_no_nl _, strChars_head_not_ws _,
            strChars_getLast_not_ws _, countOpen_obj_pos fs,
            hbal fs (List.mem_append_right _ hfs)⟩
    have hmain := pm_joined (Json.obj fs1)
      (pre'.map (fun fs => strChars (Json.obj fs))
        ++ m :: post.map (fun fs => strChars (Json.obj fs)))
      (by simp) hls
      ⟨countOpen_obj_pos fs1,
       hbal fs1 (List.mem_append_left _ (List.mem_cons_self fs1 _))⟩
    rw [show (⟨joinNl ((fs1 :: pre').map (fun fs => strChars (Json.obj fs))
          ++ m :: post.map (fun fs => strChars (Json.obj fs)))⟩ : String)
        = ⟨joinNl (strChars (Json.obj fs1)
            :: (pre'.map (fun fs => strChars (Json.obj fs))
              ++ m :: post.map (fun fs => strChars (Json.obj fs))))⟩ from rfl]
    rw [hmain]
    have hA : ∀ (X : List JsonFields),
        (X.map (fun fs => strChars (Json.obj fs))).flatMap
            (fun l => (jsonParseChars l).toList)
          = X.map Json.obj := by
      intro X
      rw [show X.map (fun fs => strChars (Json.obj fs))
          = (X.map Json.obj).map strChars from by rw [List.map_map]; rfl]
      exact flatMap_parse_roundtrip _
    rw [show strChars (Json.obj fs1)
          :: (pre'.map (fun fs => strChars (Json.obj fs))
            ++ m :: post.map (fun fs => strChars (Json.obj fs)))
        = (fs1 :: pre').map (fun fs => strChars (Json.obj fs))
          ++ m :: post.map (fun fs => strChars (Json.obj fs)) from rfl]
    rw [List.flatMap_append, List.flatMap_cons, hm7, hA (fs1 :: pre'), hA post]
    simp

/-- Instance of the amended C2 at the spec's concrete case: a valid
object line, the malformed line `\x7bnot json\x7d`, and a valid object
line yield exactly the two parsed valid objects. -/
theorem C2_malformed_line_skipped_witness :
    parsePossiblyMany ⟨joinNl ([JsonFields.cons "a" (Json.num 1) .nil].map
          (fun fs => strChars (Json.obj fs))
        ++ "\x7bnot json\x7d".data
          :: [JsonFields.cons "b" (Json.num 2) .nil].map
            (fun fs => strChars (Json.obj fs)))⟩
      = [jObj [("a", Json.num 1)], jObj [("b", Json.num 2)]] :=
  C2_malformed_line_skipped
    [JsonFields.cons "a" (Json.num 1) .nil]
    [JsonFields.cons "b" (Json.num 2) .nil]
    "\x7bnot json\x7d".data
    (by simp) (by decide) (by decide) (by decide)
    (by
      intro c hc
      rw [show ("\x7bnot json\x7d".data).head? = some '\x7b' from rfl,
        Option.some_inj] at hc
      subst hc
      decide)
    (by
      intro c hc
      rw [show ("\x7bnot json\x7d".data).getLast? = some '\x7d' from rfl,
        Option.some_inj] at hc
      subst hc
      decide)
    (by decide) (by decide) rfl

/-! ### C3: single value, array, empty input -/

/-- C3: `parsePossiblyMany` applied to the serialization of a single
JSON value returns a one-element list containing an equal value when
the value is not an array, and returns the array's elements
(element-wise equal, in order) when it is an array; applied to a string
that is empty or all whitespace it returns the empty list. -/
theorem C3_single_value_parse :
    (∀ raw : String, trimChars raw.data = [] → parsePossiblyMany raw = [])
    ∧ (∀ v : Json, (∀ xs, v ≠ Json.arr xs) →
        parsePossiblyMany (stringify v) = [v])
    ∧ (∀ xs : JsonList, parsePossiblyMany (stringify (Json.arr xs)) = xs.toList) := by
  refine ⟨?_, ?_, ?_⟩
  · intro raw h
    simp [parsePossiblyMany, h]
  · intro v hv
    rw [show stringify v = ⟨strChars v⟩ from rfl, pm_single v]
    cases v with
    | arr xs => exact absurd rfl (hv xs)
    | null => rfl
    | bool b => rfl
    | num n => rfl
    | str s => rfl
    | obj fs => rfl
  · intro xs
    rw [show stringify (Json.arr xs) = ⟨strChars (Json.arr xs)⟩ from rfl,
      pm_single (Json.arr xs)]

/-- Instance of C3 at a whitespace string, a concrete object, and a
concrete two-element array. -/
theorem C3_single_value_parse_witness :
    parsePossiblyMany "   " = []
    ∧ parsePossiblyMany (stringify (jObj [("a", Json.num 1)]))
        = [jObj [("a", Json.num 1)]]
    ∧ parsePossiblyMany (stringify (Json.arr
          (JsonList.cons (Json.num 1) (JsonList.cons (Json.bool true) JsonList.nil))))
        = [Json.num 1, Json.bool true] :=
  ⟨C3_single_value_parse.1 "   " (by decide),
   C3_single_value_parse.2.1 (jObj [("a", Json.num 1)])
     (fun xs h => Json.noConfusion h),
   C3_single_value_parse.2.2
     (JsonList.cons (Json.num 1) (JsonList.cons (Json.bool true) JsonList.nil))⟩
